import Mathlib

/-!
Verification of the TSP solver core (`src/greedy.py`, `src/genetic.py`).

Shallow embedding conventions:
* Node identifiers are natural numbers; a tour is a `List Nat`.
* Numeric distance/fitness values are modelled as `Int`: the algorithms only
  compare and accumulate these values, so an ordered commutative ring is a
  faithful abstraction of the Python floats for every claim below.
* Python's implicit randomness (`random.sample`, `random.random`) is made
  explicit: each operation receives the draws it consumes as arguments
  (a list of cut-point pairs for swath sampling, index pairs for tournament
  sampling, booleans for mutation coins).  A finite draw list models a finite
  prefix of the random stream; running out of draws (`Err.outOfDraws`)
  models a resampling loop that is still running.
* Failing Python code (`assert`, `KeyError` from `set.pop` on an empty set,
  `ValueError` from `random.sample`) is modelled with `Except Err`.
-/

namespace TSPSolver

abbrev Node := Nat

abbrev Tour := List Node

/-- A graph: an enumeration of its node set (the iteration order of the
Python `set`, which is implementation-defined but fixed during a run)
together with a distance function. -/
structure Graph where
  nodes : List Node
  distance : Node → Node → Int

/-- Error outcomes of the modelled Python code.  `assertFail` models a failed
`assert` statement, `keyError` models `set.pop` on an empty set, `valueError`
models `random.sample` with a sample larger than the population, and
`outOfDraws` models a resampling loop that has consumed the whole supplied
prefix of the random stream without exiting. -/
inductive Err where
  | assertFail : Err
  | keyError : Err
  | valueError : Err
  | outOfDraws : Err
deriving DecidableEq

/-- Python slice read `l[start:stop]` (for `0 ≤ start`, `stop ≤ len l`). -/
def pySlice (l : List α) (start stop : Nat) : List α :=
  (l.take stop).drop start

/-- Python slice assignment `l[start:stop] = repl` (for `start ≤ stop ≤ len l`
and, as in all uses in this code base, `repl` of length `stop - start`). -/
def sliceAssign (l : List α) (start stop : Nat) (repl : List α) : List α :=
  l.take start ++ repl ++ l.drop stop

/-- `_random_slice`: orders the two sampled cut points as `(min, max)`.
The enclosing `assert seq_length > 0` is checked by the callers' own
`seq_length > 2` assertions, modelled in `_get_valid_swath`. -/
def randomSlice (d : Nat × Nat) : Nat × Nat :=
  (min d.1 d.2, max d.1 d.2)

/-- First `while` loop of `_get_valid_swath`: redraw while the slice has
fewer than two members. -/
def swathLoopA (s : Nat × Nat) : List (Nat × Nat) → Option ((Nat × Nat) × List (Nat × Nat))
  | [] => if s.2 - s.1 ≤ 1 then none else some (s, [])
  | d :: ds =>
    if s.2 - s.1 ≤ 1 then swathLoopA (randomSlice d) ds
    else some (s, d :: ds)

/-- Second `while` loop of `_get_valid_swath`: redraw while the slice covers
the full sequence.  Note the redraws of this loop are *not* re-checked
against the minimum-length condition of the first loop. -/
def swathLoopB (n : Nat) (s : Nat × Nat) : List (Nat × Nat) → Option (Nat × Nat)
  | [] => if s.1 = 0 ∧ s.2 = n then none else some s
  | d :: ds =>
    if s.1 = 0 ∧ s.2 = n then swathLoopB n (randomSlice d) ds
    else some s

/-- `_get_valid_swath(seq_length)` with the random cut-point draws explicit. -/
def _get_valid_swath (n : Nat) (draws : List (Nat × Nat)) : Except Err (Nat × Nat) :=
  if 2 < n then
    match draws with
    | [] => .error .outOfDraws
    | d :: ds =>
      match swathLoopA (randomSlice d) ds with
      | none => .error .outOfDraws
      | some (s, rest) =>
        match swathLoopB n s rest with
        | none => .error .outOfDraws
        | some s2 => .ok s2
  else .error .assertFail

/-- The in-place body of `sim` once the swath `[start, stop)` is fixed:
`seq[swath] = reversed(seq[swath])`. -/
def simApply (seq : List α) (start stop : Nat) : List α :=
  sliceAssign seq start stop (pySlice seq start stop).reverse

/-- `sim(seq)` with the random draws explicit. -/
def sim (seq : Tour) (draws : List (Nat × Nat)) : Except Err Tour :=
  if 2 < seq.length then
    match _get_valid_swath seq.length draws with
    | .error e => .error e
    | .ok s => .ok (simApply seq s.1 s.2)
  else .error .assertFail

/-- A population member: a `(fitness, tour)` pair, as in `generate_population`. -/
abbrev Member := Int × Tour

def dummyMember : Member := (0, [])

/-- Python lexicographic comparison of two lists of node identifiers. -/
def tourLtB : List Nat → List Nat → Bool
  | [], [] => false
  | [], _ :: _ => true
  | _ :: _, [] => false
  | a :: as, b :: bs => if a < b then true else if b < a then false else tourLtB as bs

/-- Python `<` on `(fitness, tour)` tuples: lexicographic. -/
def pyLt (x y : Member) : Bool :=
  x.1 < y.1 || (x.1 == y.1 && tourLtB x.2 y.2)

/-- Walk-down phase of CPython `heapq._siftup(heap, 0)`: repeatedly move the
smaller child up, returning the final heap and the leaf position reached. -/
def siftupGo (endpos : Nat) (heap : List Member) (pos : Nat) : List Member × Nat :=
  if hc : 2 * pos + 1 < endpos then
    if hr : 2 * pos + 2 < endpos ∧
        ¬ (pyLt (heap.getD (2 * pos + 1) dummyMember) (heap.getD (2 * pos + 2) dummyMember)
            = true) then
      siftupGo endpos (heap.set pos (heap.getD (2 * pos + 2) dummyMember)) (2 * pos + 2)
    else
      siftupGo endpos (heap.set pos (heap.getD (2 * pos + 1) dummyMember)) (2 * pos + 1)
  else (heap, pos)
termination_by endpos - pos
decreasing_by
  · omega
  · omega

/-- CPython `heapq._siftdown(heap, 0, pos)`: walk back up from `pos` moving
parents greater than `newitem` down, then place `newitem`. -/
def siftdownGo (heap : List Member) (newitem : Member) (pos : Nat) : List Member :=
  if 0 < pos then
    let parentpos := (pos - 1) / 2
    let parent := heap.getD parentpos dummyMember
    if pyLt newitem parent then siftdownGo (heap.set pos parent) newitem parentpos
    else heap.set pos newitem
  else heap.set pos newitem
termination_by pos
decreasing_by omega

/-- CPython `heapq._siftup(heap, 0)`. -/
def siftup (heap : List Member) : List Member :=
  let newitem := heap.getD 0 dummyMember
  let wp := siftupGo heap.length heap 0
  siftdownGo wp.1 newitem wp.2

/-- CPython `heapq.heappushpop` restricted to its effect on the heap (the
returned element is discarded by `update_population`). -/
def heappushpop (heap : List Member) (item : Member) : List Member :=
  match heap with
  | [] => heap
  | root :: rest => if pyLt root item then siftup (item :: rest) else root :: rest

/-- `update_population(item, population)`: replace the heap root when the new
item's fitness beats it, otherwise leave the population untouched.  (On an
empty population the Python code raises `IndexError`; all claims concern
non-empty populations.) -/
def update_population (item : Member) (population : List Member) : List Member :=
  match population with
  | [] => population
  | worst :: _ => if item.1 > worst.1 then heappushpop population item else population

/-- The binary min-heap property on fitness values, as laid out by `heapq`
in a plain list: every non-root element is at least its parent. -/
def IsMinHeap (l : List Member) : Prop :=
  ∀ j, j < l.length → 0 < j →
    (l.getD ((j - 1) / 2) dummyMember).1 ≤ (l.getD j dummyMember).1

/-- Maximum fitness present in a population (`⊥` for an empty one). -/
def maxFitness (l : List Member) : WithBot Int :=
  (l.map (fun m => (m.1 : WithBot Int))).foldr max ⊥

instance (l : List Member) : Decidable (IsMinHeap l) := by
  unfold IsMinHeap
  infer_instance

/-- The child buffer of `ox1` after `child[swath] = main_seq[swath]`:
`length * [None]` with the swath positions holding the primary parent's
values. -/
def prefill (main : List Nat) (start stop : Nat) : List (Option Nat) :=
  sliceAssign (List.replicate main.length (none : Option Nat)) start stop
    ((pySlice main start stop).map some)

/-- `_fill_missing_genes(prefilled_slice, source, target)`: scan `source`
cyclically from index `stop`, skipping values already in the prefilled
slice, writing accepted values into consecutive cyclic positions of
`target` starting at `stop`. -/
def _fill_missing_genes (start stop : Nat) (source : List Nat)
    (target : List (Option Nat)) : List (Option Nat) :=
  let n := source.length
  let already := pySlice target start stop
  ((List.range n).foldl (fun acc soff =>
    let v := source.getD ((soff + stop) % n) 0
    if some v ∈ already then acc
    else (acc.1.set ((acc.2 + stop) % n) (some v), acc.2 + 1)) (target, 0)).1

/-- `ox1(main_seq, secondary_seq)` for a fixed swath `[start, stop)`, before
reading the child back as a plain list. -/
def ox1With (main sec : List Nat) (start stop : Nat) : List (Option Nat) :=
  _fill_missing_genes start stop sec (prefill main start stop)

/-- The `ox1` child for a fixed swath, as the plain node list the Python code
returns (every slot is filled when the parents are permutations of a common
node set, which is proved below, so the `Option.getD 0` default never
applies). -/
def ox1Core (main sec : List Nat) (start stop : Nat) : List Nat :=
  (ox1With main sec start stop).map (fun o => o.getD 0)

/-- `ox1(main_seq, secondary_seq)` with the random draws explicit. -/
def ox1 (main sec : Tour) (draws : List (Nat × Nat)) : Except Err Tour :=
  if main.length = sec.length then
    match _get_valid_swath main.length draws with
    | .error e => .error e
    | .ok s => .ok (ox1Core main sec s.1 s.2)
  else .error .assertFail

/-- The secondary parent's values read in cyclic order starting at index
`stop` (mod `N`), keeping only those not already present in the primary
parent's swath. -/
def missingOf (main sec : List Nat) (start stop : Nat) : List Nat :=
  ((List.range main.length).map (fun s => sec.getD ((s + stop) % main.length) 0)).filter
    (fun v => decide (v ∉ pySlice main start stop))

/-- The child described by the specification of OX1 (claim C4), written from
the spec's words: positions in `[start, stop)` are copied verbatim from the
primary parent; the remaining positions hold the secondary parent's values
taken in cyclic order starting at index `stop` (mod `N`), skipping the values
already present in the swath, written into the child's empty positions also
starting at index `stop` and advancing cyclically mod `N`. -/
def ox1Ref (main sec : List Nat) (start stop : Nat) : List Nat :=
  let n := main.length
  (List.range n).map (fun p =>
    if start ≤ p ∧ p < stop then main.getD p 0
    else (missingOf main sec start stop).getD ((p + n - stop) % n) 0)

/-- The accepted values of the fill loop, written one after another into
consecutive cyclic positions of the target starting at offset `k`:
an unrolled view of the loop of `_fill_missing_genes`. -/
def writeSeq (stop n : Nat) : List (Option Nat) → Nat → List Nat → List (Option Nat)
  | t, _, [] => t
  | t, k, v :: vs => writeSeq stop n (t.set ((k + stop) % n) (some v)) (k + 1) vs

/-- One iteration of the loop of `_fill_missing_genes`. -/
def fillStep (source : List Nat) (stop n : Nat) (already : List (Option Nat))
    (acc : List (Option Nat) × Nat) (soff : Nat) : List (Option Nat) × Nat :=
  let v := source.getD ((soff + stop) % n) 0
  if some v ∈ already then acc
  else (acc.1.set ((acc.2 + stop) % n) (some v), acc.2 + 1)

/-- Python `min(candidates, key=...)`: fold keeping the first strictly
smallest element (ties keep the earlier candidate). -/
def pickMin (g : Graph) (prev : Node) (a : Node) (rest : List Node) : Node :=
  rest.foldl (fun best c => if g.distance prev c < g.distance prev best then c else best) a

/-- The `while available_nodes:` loop of `greedy`.  The fuel argument equals
the number of available nodes, which decreases by exactly one per iteration
(`available_nodes.remove(next_node)`), so the fuel is never exhausted early. -/
def greedyGo (g : Graph) : Nat → Node → List Node → List Node
  | 0, _, _ => []
  | fuel + 1, prev, available =>
    match available with
    | [] => []
    | a :: rest =>
      let nxt := pickMin g prev a rest
      nxt :: greedyGo g fuel nxt ((a :: rest).erase nxt)

/-- `greedy(graph)` from `src/greedy.py`: pop an arbitrary starting node
(the head of the node enumeration), then repeatedly append the nearest
available node.  `set.pop()` on an empty set raises `KeyError`. -/
def greedy (g : Graph) : Except Err Tour :=
  match g.nodes with
  | [] => .error .keyError
  | s :: rest => .ok (s :: greedyGo g rest.length s rest)

/-- Helper for `tour_length`: distances between consecutive nodes, plus the
closing edge back to the first node of the tour. -/
def tourLenGo (g : Graph) (first : Node) : List Node → Int
  | [] => 0
  | [a] => g.distance a first
  | a :: b :: rest => g.distance a b + tourLenGo g first (b :: rest)

/-- Modelled from the spec: `tour_length` is imported from the repository's
`algorithms` module, which is not included under `src/` (only `greedy` is).
Per the spec (§4.3): the total length sums `distance` over consecutive tour
pairs including the wrap-around edge from the last node back to the first. -/
def tour_length (t : Tour) (g : Graph) : Int :=
  match t with
  | [] => 0
  | s :: rest => tourLenGo g s (s :: rest)

/-- `_get_fitness(tour, graph) = -1 * tour_length(tour, graph)`. -/
def _get_fitness (t : Tour) (g : Graph) : Int :=
  -1 * tour_length t g

/-- The `for _ in range(size - 1)` loop of `generate_population`: mutate a
copy of the initial tour and score it, once per loop index. -/
def genLoop (g : Graph) (initial : Tour) (oracles : Nat → List (Nat × Nat)) :
    List Nat → Except Err (List Member)
  | [] => .ok []
  | i :: is =>
    match sim initial (oracles i) with
    | .error e => .error e
    | .ok mutated =>
      match genLoop g initial oracles is with
      | .error e => .error e
      | .ok rest => .ok ((_get_fitness mutated g, mutated) :: rest)

/-- `generate_population(graph, size)`.  `size` is an integer as in Python:
`range(size - 1)` is empty for every `size ≤ 1`.  The `oracles` argument
supplies the cut-point draws consumed by the `k`-th `sim` call. -/
def generate_population (g : Graph) (size : Int)
    (oracles : Nat → List (Nat × Nat)) : Except Err (List Member) :=
  match greedy g with
  | .error e => .error e
  | .ok initial =>
    match genLoop g initial oracles (List.range (size - 1).toNat) with
    | .error e => .error e
    | .ok rest => .ok ((_get_fitness initial g, initial) :: rest)

/-- `_tournament_selection(population)` with the two sampled indices
explicit.  `random.sample(population, 2)` raises `ValueError` when the
population has fewer than 2 members; Python's `max` keeps the first of two
tied items. -/
def _tournament_selection (population : List Member) (pick : Nat × Nat) :
    Except Err Tour :=
  if population.length < 2 then .error .valueError
  else if (population.getD pick.2 dummyMember).1 > (population.getD pick.1 dummyMember).1 then
    .ok (population.getD pick.2 dummyMember).2
  else .ok (population.getD pick.1 dummyMember).2

/-- `select_two_parents(population)`: two independent tournaments. -/
def select_two_parents (population : List Member) (p1 p2 : Nat × Nat) :
    Except Err (Tour × Tour) :=
  match _tournament_selection population p1 with
  | .error e => .error e
  | .ok parent1 =>
    match _tournament_selection population p2 with
    | .error e => .error e
    | .ok parent2 => .ok (parent1, parent2)

def POPULATION_SIZE : Int := 200

def MAX_ITERATIONS : Nat := 50000

/-- All random draws consumed by one run of `genetic`, indexed by
generation: tournament index pairs, swath cut points for the two `ox1`
calls, the outcomes of the two `random() <= MUTATION_PROBA` coin flips, and
swath cut points for the two optional `sim` calls.  `initDraws` feeds the
`sim` calls of `generate_population`. -/
structure Oracle where
  initDraws : Nat → List (Nat × Nat)
  selPicks : Nat → (Nat × Nat) × (Nat × Nat)
  swath1 : Nat → List (Nat × Nat)
  coin1 : Nat → Bool
  mutDraws1 : Nat → List (Nat × Nat)
  swath2 : Nat → List (Nat × Nat)
  coin2 : Nat → Bool
  mutDraws2 : Nat → List (Nat × Nat)

/-- One generation of the evolutionary loop of `genetic`. -/
def geneticStep (g : Graph) (o : Oracle) (i : Nat) (population : List Member) :
    Except Err (List Member) :=
  match select_two_parents population (o.selPicks i).1 (o.selPicks i).2 with
  | .error e => .error e
  | .ok (parent1, parent2) =>
    match ox1 parent1 parent2 (o.swath1 i) with
    | .error e => .error e
    | .ok child1a =>
      match (if o.coin1 i then sim child1a (o.mutDraws1 i) else .ok child1a) with
      | .error e => .error e
      | .ok child1 =>
        let pop1 := update_population (_get_fitness child1 g, child1) population
        match ox1 parent2 parent1 (o.swath2 i) with
        | .error e => .error e
        | .ok child2a =>
          match (if o.coin2 i then sim child2a (o.mutDraws2 i) else .ok child2a) with
          | .error e => .error e
          | .ok child2 =>
            .ok (update_population (_get_fitness child2 g, child2) pop1)

/-- The `for _ in range(MAX_ITERATIONS)` loop of `genetic`. -/
def geneticLoop (g : Graph) (o : Oracle) : List Nat → List Member →
    Except Err (List Member)
  | [], population => .ok population
  | i :: is, population =>
    match geneticStep g o i population with
    | .error e => .error e
    | .ok pop2 => geneticLoop g o is pop2

/-- `max(population, key=itemgetter(0))`: linear scan keeping the first
maximal member; `None` models the `ValueError` of `max` on an empty list. -/
def maxMember : List Member → Option Member
  | [] => none
  | m :: rest => some (rest.foldl (fun best x => if x.1 > best.1 then x else best) m)

/-- `genetic(graph)`: seed the population, run `MAX_ITERATIONS` generations,
extract the best tour by linear scan. -/
def genetic (g : Graph) (o : Oracle) : Except Err Tour :=
  match generate_population g POPULATION_SIZE o.initDraws with
  | .error e => .error e
  | .ok population =>
    match geneticLoop g o (List.range MAX_ITERATIONS) population with
    | .error e => .error e
    | .ok finalPop =>
      match maxMember finalPop with
      | none => .error .valueError
      | some best => .ok best.2

/-- The swath-sampling call terminates on the draw stream `oracle`: some
finite prefix of the stream makes `_get_valid_swath` return a swath. -/
def swathSamplingTerminates (n : Nat) (oracle : Nat → Nat × Nat) : Prop :=
  ∃ k sw, _get_valid_swath n ((List.range k).map oracle) = .ok sw

/-- The random draws of generation `i` suffice for the generation to run:
tournament indices in range, and each of the four possible swath-sampling
calls is supplied valid cut points among which a successful draw occurs. -/
def GoodIter (g : Graph) (o : Oracle) (N : Nat) (i : Nat) : Prop :=
  (o.selPicks i).1.1 < N ∧ (o.selPicks i).1.2 < N ∧
  (o.selPicks i).2.1 < N ∧ (o.selPicks i).2.2 < N ∧
  (∀ d ∈ o.swath1 i, d.1 ≤ g.nodes.length ∧ d.2 ≤ g.nodes.length) ∧
  (∃ sw, _get_valid_swath g.nodes.length (o.swath1 i) = .ok sw) ∧
  (∀ d ∈ o.mutDraws1 i, d.1 ≤ g.nodes.length ∧ d.2 ≤ g.nodes.length) ∧
  (∃ sw, _get_valid_swath g.nodes.length (o.mutDraws1 i) = .ok sw) ∧
  (∀ d ∈ o.swath2 i, d.1 ≤ g.nodes.length ∧ d.2 ≤ g.nodes.length) ∧
  (∃ sw, _get_valid_swath g.nodes.length (o.swath2 i) = .ok sw) ∧
  (∀ d ∈ o.mutDraws2 i, d.1 ≤ g.nodes.length ∧ d.2 ≤ g.nodes.length) ∧
  (∃ sw, _get_valid_swath g.nodes.length (o.mutDraws2 i) = .ok sw)

def isOkPop : Except Err (List Member) → Bool
  | .ok _ => true
  | .error _ => false

def okPop : Except Err (List Member) → List Member
  | .ok l => l
  | .error _ => []

def isOkTour : Except Err Tour → Bool
  | .ok _ => true
  | .error _ => false

def okTour : Except Err Tour → Tour
  | .ok t => t
  | .error _ => []

lemma set_perm : ∀ (l : List α) (i : Nat) (x : α), i < l.length →
    (l.set i x).Perm (x :: l.eraseIdx i)
  | a :: as, 0, x, _ => by simp
  | a :: as, i + 1, x, h => by
    simp only [List.set_cons_succ, List.eraseIdx_cons_succ]
    exact (List.Perm.cons a (set_perm as i x (by simpa using h))).trans
      (List.Perm.swap x a (as.eraseIdx i))

lemma getD_cons_eraseIdx : ∀ (l : List α) (i : Nat) (d : α), i < l.length →
    l.Perm (l.getD i d :: l.eraseIdx i)
  | a :: as, 0, d, _ => by simp
  | a :: as, i + 1, d, h => by
    simp only [List.getD_cons_succ, List.eraseIdx_cons_succ]
    exact (List.Perm.cons a (getD_cons_eraseIdx as i d (by simpa using h))).trans
      (List.Perm.swap (as.getD i d) a (as.eraseIdx i))

lemma getD_set_ne : ∀ (l : List α) (i j : Nat) (x : α) (d : α), i ≠ j →
    (l.set i x).getD j d = l.getD j d
  | [], _, _, _, _, _ => by simp
  | a :: as, 0, 0, x, d, hne => absurd rfl hne
  | a :: as, 0, j + 1, x, d, _ => by simp
  | a :: as, i + 1, 0, x, d, _ => by simp
  | a :: as, i + 1, j + 1, x, d, hne => by
    simp only [List.set_cons_succ, List.getD_cons_succ]
    exact getD_set_ne as i j x d (fun h => hne (by omega))

/-- Moving the value at slot `j` into slot `i` and then deleting slot `j`
permutes into deleting slot `i`: the step invariant of both sift walks. -/
lemma move_eraseIdx (l : List α) (i j : Nat) (d : α) (hi : i < l.length)
    (hj : j < l.length) (hne : i ≠ j) :
    ((l.set i (l.getD j d)).eraseIdx j).Perm (l.eraseIdx i) := by
  have h1 : (l.set i (l.getD j d)).Perm (l.getD j d :: l.eraseIdx i) :=
    set_perm l i (l.getD j d) hi
  have hj2 : j < (l.set i (l.getD j d)).length := by simpa using hj
  have h2 : (l.set i (l.getD j d)).Perm
      ((l.set i (l.getD j d)).getD j d :: (l.set i (l.getD j d)).eraseIdx j) :=
    getD_cons_eraseIdx _ j d hj2
  rw [getD_set_ne l i j _ d hne] at h2
  exact (h2.symm.trans h1).cons_inv

lemma siftupGo_spec (endpos : Nat) : ∀ (k : Nat) (heap : List Member) (pos : Nat),
    endpos - pos ≤ k → pos < heap.length → endpos ≤ heap.length →
    (siftupGo endpos heap pos).1.length = heap.length ∧
    (siftupGo endpos heap pos).2 < heap.length ∧
    ((siftupGo endpos heap pos).1.eraseIdx (siftupGo endpos heap pos).2).Perm
      (heap.eraseIdx pos) := by
  intro k
  induction k with
  | zero =>
    intro heap pos hk hpos hend
    rw [siftupGo, dif_neg (by omega : ¬ (2 * pos + 1 < endpos))]
    exact ⟨rfl, hpos, List.Perm.refl _⟩
  | succ k ih =>
    intro heap pos hk hpos hend
    rw [siftupGo]
    by_cases hc : 2 * pos + 1 < endpos
    · rw [dif_pos hc]
      by_cases hr : 2 * pos + 2 < endpos ∧
          ¬ (pyLt (heap.getD (2 * pos + 1) dummyMember) (heap.getD (2 * pos + 2) dummyMember)
              = true)
      · rw [dif_pos hr]
        have hlen : (heap.set pos (heap.getD (2 * pos + 2) dummyMember)).length
            = heap.length := by simp
        have h2 : 2 * pos + 2 < (heap.set pos (heap.getD (2 * pos + 2) dummyMember)).length := by
          rw [hlen]; omega
        obtain ⟨l1, l2, l3⟩ := ih (heap.set pos (heap.getD (2 * pos + 2) dummyMember))
          (2 * pos + 2) (by omega) h2 (by rw [hlen]; exact hend)
        refine ⟨by rw [l1, hlen], by rw [hlen] at l2; exact l2, ?_⟩
        exact l3.trans (move_eraseIdx heap pos (2 * pos + 2) dummyMember hpos
          (by omega) (by omega))
      · rw [dif_neg hr]
        have hlen : (heap.set pos (heap.getD (2 * pos + 1) dummyMember)).length
            = heap.length := by simp
        have h2 : 2 * pos + 1 < (heap.set pos (heap.getD (2 * pos + 1) dummyMember)).length := by
          rw [hlen]; omega
        obtain ⟨l1, l2, l3⟩ := ih (heap.set pos (heap.getD (2 * pos + 1) dummyMember))
          (2 * pos + 1) (by omega) h2 (by rw [hlen]; exact hend)
        refine ⟨by rw [l1, hlen], by rw [hlen] at l2; exact l2, ?_⟩
        exact l3.trans (move_eraseIdx heap pos (2 * pos + 1) dummyMember hpos
          (by omega) (by omega))
    · rw [dif_neg hc]
      exact ⟨rfl, hpos, List.Perm.refl _⟩

lemma siftdownGo_spec : ∀ (pos : Nat) (heap : List Member) (newitem : Member),
    pos < heap.length →
    (siftdownGo heap newitem pos).length = heap.length ∧
    (siftdownGo heap newitem pos).Perm (newitem :: heap.eraseIdx pos) := by
  intro pos
  induction pos using Nat.strong_induction_on with
  | _ pos ih =>
    intro heap newitem hpos
    rw [siftdownGo]
    by_cases h0 : 0 < pos
    · simp only [h0, if_pos]
      by_cases hlt : pyLt newitem (heap.getD ((pos - 1) / 2) dummyMember)
      · simp only [hlt, if_pos]
        have hpp : (pos - 1) / 2 < pos := by omega
        have hpl : (pos - 1) / 2 < (heap.set pos (heap.getD ((pos - 1) / 2) dummyMember)).length := by
          simp; omega
        obtain ⟨l1, l2⟩ := ih ((pos - 1) / 2) hpp
          (heap.set pos (heap.getD ((pos - 1) / 2) dummyMember)) newitem hpl
        refine ⟨by rw [l1]; simp, ?_⟩
        refine l2.trans (List.Perm.cons newitem ?_)
        exact move_eraseIdx heap pos ((pos - 1) / 2) dummyMember hpos (by omega) (by omega)
      · simp only [hlt, if_neg, not_false_iff]
        exact ⟨by simp, set_perm heap pos newitem hpos⟩
    · simp only [h0, if_neg, not_false_iff]
      exact ⟨by simp, set_perm heap pos newitem hpos⟩

lemma siftup_perm (item : Member) (rest : List Member) :
    (siftup (item :: rest)).length = rest.length + 1 ∧
    (siftup (item :: rest)).Perm (item :: rest) := by
  unfold siftup
  have hlen : (item :: rest).length = rest.length + 1 := by simp
  obtain ⟨u1, u2, u3⟩ := siftupGo_spec (item :: rest).length (item :: rest).length
    (item :: rest) 0 (by omega) (by simp) (le_refl _)
  have hd : (siftupGo (item :: rest).length (item :: rest) 0).2
      < (siftupGo (item :: rest).length (item :: rest) 0).1.length := by
    rw [u1]; exact u2
  obtain ⟨d1, d2⟩ := siftdownGo_spec _ _ ((item :: rest).getD 0 dummyMember) hd
  constructor
  · rw [d1, u1, hlen]
  · have : ((item :: rest).getD 0 dummyMember) = item := rfl
    rw [this] at d2
    refine d2.trans (List.Perm.cons item ?_)
    simpa using u3

lemma pyLt_of_fitness_lt {x y : Member} (h : x.1 < y.1) : pyLt x y = true := by
  simp [pyLt, h]

lemma heappushpop_perm (root : Member) (rest : List Member) (item : Member)
    (h : pyLt root item = true) :
    (heappushpop (root :: rest) item).Perm (item :: rest) := by
  unfold heappushpop
  simp only [h, if_pos]
  exact (siftup_perm item rest).2

/-- Part of `IsMinHeap`: the heap root has minimal fitness. -/
lemma IsMinHeap.root_le {l : List Member} (h : IsMinHeap l) :
    ∀ j, j < l.length → (l.getD 0 dummyMember).1 ≤ (l.getD j dummyMember).1 := by
  intro j
  induction j using Nat.strong_induction_on with
  | _ j ih =>
    intro hj
    rcases Nat.eq_zero_or_pos j with h0 | h0
    · subst h0; exact le_refl _
    · have hpar : (j - 1) / 2 < j := by omega
      exact le_trans (ih ((j - 1) / 2) hpar (by omega)) (h j hj h0)

lemma IsMinHeap.le_of_mem {l : List Member} (h : IsMinHeap l) {m : Member}
    (hm : m ∈ l) : (l.getD 0 dummyMember).1 ≤ m.1 := by
  obtain ⟨i, hi, rfl⟩ := List.getElem_of_mem hm
  have := h.root_le i hi
  rwa [List.getD_eq_getElem _ _ hi] at this

lemma getD_zero_mem (l : List α) (d : α) (h : 0 < l.length) : l.getD 0 d ∈ l := by
  cases l with
  | nil => simp at h
  | cons a as => simp

lemma maxFitness_cons (m : Member) (l : List Member) :
    maxFitness (m :: l) = max (m.1 : WithBot Int) (maxFitness l) := rfl

lemma maxFitness_perm {l l' : List Member} (h : l.Perm l') :
    maxFitness l = maxFitness l' := by
  unfold maxFitness
  exact List.Perm.foldr_eq (f := max) (h.map (fun m => (m.1 : WithBot Int))) ⊥

lemma update_population_perm (item worst : Member) (rest : List Member)
    (hgt : item.1 > worst.1) :
    (update_population item (worst :: rest)).Perm (item :: rest) := by
  show (if item.1 > worst.1 then heappushpop (worst :: rest) item
    else worst :: rest).Perm (item :: rest)
  rw [if_pos hgt]
  exact heappushpop_perm worst rest item (pyLt_of_fitness_lt hgt)

lemma update_population_unchanged (item worst : Member) (rest : List Member)
    (hle : ¬ item.1 > worst.1) :
    update_population item (worst :: rest) = worst :: rest := by
  show (if item.1 > worst.1 then heappushpop (worst :: rest) item
    else worst :: rest) = worst :: rest
  rw [if_neg hle]

/-- Claim C3: on a non-empty min-heap population, `update_population` replaces
exactly the root — the worst (minimum-fitness) member — by a strictly fitter
candidate, keeping the size; a candidate that does not beat the worst member
is discarded and the population is returned unchanged. -/
theorem update_population_replace_spec (item worst : Member) (rest : List Member)
    (hheap : IsMinHeap (worst :: rest)) :
    (∀ m ∈ worst :: rest, worst.1 ≤ m.1) ∧
    (item.1 > worst.1 →
      (update_population item (worst :: rest)).Perm (item :: rest) ∧
      (update_population item (worst :: rest)).length = (worst :: rest).length) ∧
    (¬ item.1 > worst.1 → update_population item (worst :: rest) = worst :: rest) := by
  refine ⟨fun m hm => hheap.le_of_mem hm, fun hgt => ?_, fun hle =>
    update_population_unchanged item worst rest hle⟩
  have hperm := update_population_perm item worst rest hgt
  exact ⟨hperm, by rw [hperm.length_eq]; simp⟩

theorem update_population_replace_spec_witness :
    (update_population ((5 : Int), [2, 1, 0])
      [((1 : Int), [0, 1, 2]), ((2 : Int), [1, 2, 0]), ((3 : Int), [2, 0, 1])]).Perm
      [((5 : Int), [2, 1, 0]), ((2 : Int), [1, 2, 0]), ((3 : Int), [2, 0, 1])] ∧
    (update_population ((5 : Int), [2, 1, 0])
      [((1 : Int), [0, 1, 2]), ((2 : Int), [1, 2, 0]), ((3 : Int), [2, 0, 1])]).length = 3 :=
  (update_population_replace_spec ((5 : Int), [2, 1, 0]) ((1 : Int), [0, 1, 2])
    [((2 : Int), [1, 2, 0]), ((3 : Int), [2, 0, 1])] (by decide)).2.1 (by decide)

/-- Claim C5: after any `update_population` call on a non-empty min-heap
population, the fitness of the heap root is at least the pre-call worst
fitness, and indeed every member of the updated population has fitness at
least the pre-call worst fitness. -/
theorem update_population_worst_monotone (item worst : Member) (rest : List Member)
    (hheap : IsMinHeap (worst :: rest)) :
    worst.1 ≤ ((update_population item (worst :: rest)).getD 0 dummyMember).1 ∧
    ∀ m ∈ update_population item (worst :: rest), worst.1 ≤ m.1 := by
  by_cases hgt : item.1 > worst.1
  · have hperm := update_population_perm item worst rest hgt
    have hmem : ∀ m ∈ update_population item (worst :: rest), worst.1 ≤ m.1 := by
      intro m hm
      rw [hperm.mem_iff, List.mem_cons] at hm
      rcases hm with rfl | hm
      · exact le_of_lt hgt
      · have := hheap.le_of_mem (List.mem_cons_of_mem worst hm)
        simpa using this
    refine ⟨hmem _ (getD_zero_mem _ _ ?_), hmem⟩
    rw [hperm.length_eq]
    simp
  · rw [update_population_unchanged item worst rest hgt]
    exact ⟨le_refl _, fun m hm => by simpa using hheap.le_of_mem hm⟩

theorem update_population_worst_monotone_witness :
    (1 : Int) ≤ ((update_population ((5 : Int), [2, 1, 0])
      [((1 : Int), [0, 1, 2]), ((2 : Int), [1, 2, 0]), ((3 : Int), [2, 0, 1])]).getD 0
        dummyMember).1 :=
  (update_population_worst_monotone ((5 : Int), [2, 1, 0]) ((1 : Int), [0, 1, 2])
    [((2 : Int), [1, 2, 0]), ((3 : Int), [2, 0, 1])] (by decide)).1

/-- Claim C10: `update_population` never decreases the maximum fitness present
in the population: the best member is never evicted, since only the heap root
(a minimum) is ever removed, and then only for a strictly fitter candidate. -/
theorem update_population_max_monotone (item worst : Member) (rest : List Member)
    (hheap : IsMinHeap (worst :: rest)) :
    maxFitness (worst :: rest) ≤ maxFitness (update_population item (worst :: rest)) := by
  by_cases hgt : item.1 > worst.1
  · rw [maxFitness_perm (update_population_perm item worst rest hgt),
      maxFitness_cons, maxFitness_cons]
    exact max_le_max (by exact_mod_cast le_of_lt hgt) (le_refl _)
  · rw [update_population_unchanged item worst rest hgt]

theorem update_population_max_monotone_witness :
    maxFitness [((1 : Int), [0, 1, 2]), ((2 : Int), [1, 2, 0]), ((3 : Int), [2, 0, 1])] ≤
      maxFitness (update_population ((5 : Int), [2, 1, 0])
        [((1 : Int), [0, 1, 2]), ((2 : Int), [1, 2, 0]), ((3 : Int), [2, 0, 1])]) :=
  update_population_max_monotone ((5 : Int), [2, 1, 0]) ((1 : Int), [0, 1, 2])
    [((2 : Int), [1, 2, 0]), ((3 : Int), [2, 0, 1])] (by decide)

lemma getD_set_eq : ∀ (l : List α) (i : Nat) (x d : α), i < l.length →
    (l.set i x).getD i d = x
  | _ :: _, 0, _, _, _ => rfl
  | a :: as, i + 1, x, d, h => by
    simp only [List.set_cons_succ, List.getD_cons_succ]
    exact getD_set_eq as i x d (by simpa using h)

lemma fill_eq_foldl_fillStep (start stop : Nat) (source : List Nat)
    (target : List (Option Nat)) :
    _fill_missing_genes start stop source target =
      ((List.range source.length).foldl
        (fillStep source stop source.length (pySlice target start stop)) (target, 0)).1 :=
  rfl

lemma add_mod_ne (a m n : Nat) (h0 : 0 < m) (hm : m < n) : (a + m) % n ≠ a % n := by
  intro h
  have hmod : a + m ≡ a + 0 [MOD n] := by simpa [Nat.ModEq] using h
  have h2 : m ≡ 0 [MOD n] := Nat.ModEq.add_left_cancel' a hmod
  have h3 : m % n = 0 := by simpa [Nat.ModEq] using h2
  rw [Nat.mod_eq_of_lt hm] at h3
  omega

lemma mod_sub_window (x n : Nat) (h1 : n ≤ x) (h2 : x < 2 * n) : x % n = x - n := by
  rw [Nat.mod_eq_sub_mod h1, Nat.mod_eq_of_lt (by omega)]

lemma writeSeq_length (stop n : Nat) : ∀ (vs : List Nat) (t : List (Option Nat)) (k : Nat),
    (writeSeq stop n t k vs).length = t.length
  | [], _, _ => rfl
  | v :: vs, t, k => by
    rw [writeSeq, writeSeq_length stop n vs]
    simp

lemma foldl_fillStep_eq_writeSeq (source : List Nat) (stop n : Nat)
    (already : List (Option Nat)) :
    ∀ (offs : List Nat) (t : List (Option Nat)) (k : Nat),
    offs.foldl (fillStep source stop n already) (t, k) =
      (writeSeq stop n t k ((offs.map (fun s => source.getD ((s + stop) % n) 0)).filter
        (fun v => decide (some v ∉ already))),
       k + ((offs.map (fun s => source.getD ((s + stop) % n) 0)).filter
        (fun v => decide (some v ∉ already))).length)
  | [], t, k => by simp [writeSeq]
  | o :: os, t, k => by
    by_cases hv : some (source.getD ((o + stop) % n) 0) ∈ already
    · have hstep : fillStep source stop n already (t, k) o = (t, k) := by
        simp only [fillStep]
        rw [if_pos hv]
      have hfil : (((o :: os).map (fun s => source.getD ((s + stop) % n) 0)).filter
          (fun v => decide (some v ∉ already))) =
          ((os.map (fun s => source.getD ((s + stop) % n) 0)).filter
          (fun v => decide (some v ∉ already))) := by
        rw [List.map_cons, List.filter_cons, if_neg (by simpa using hv)]
      rw [List.foldl_cons, hstep, foldl_fillStep_eq_writeSeq source stop n already os t k, hfil]
    · have hstep : fillStep source stop n already (t, k) o =
          (t.set ((k + stop) % n) (some (source.getD ((o + stop) % n) 0)), k + 1) := by
        simp only [fillStep]
        rw [if_neg hv]
      have hfil : (((o :: os).map (fun s => source.getD ((s + stop) % n) 0)).filter
          (fun v => decide (some v ∉ already))) =
          source.getD ((o + stop) % n) 0 ::
            ((os.map (fun s => source.getD ((s + stop) % n) 0)).filter
            (fun v => decide (some v ∉ already))) := by
        rw [List.map_cons, List.filter_cons, if_pos (by simpa using hv)]
      rw [List.foldl_cons, hstep, foldl_fillStep_eq_writeSeq source stop n already os _ (k + 1),
        hfil]
      simp only [Prod.mk.injEq]
      refine ⟨rfl, ?_⟩
      simp only [List.length_cons]
      omega

lemma writeSeq_getD_miss (stop n : Nat) : ∀ (vs : List Nat) (t : List (Option Nat)) (k p : Nat),
    (∀ j, j < vs.length → (k + j + stop) % n ≠ p) →
    (writeSeq stop n t k vs).getD p none = t.getD p none
  | [], _, _, _, _ => rfl
  | v :: vs, t, k, p, h => by
    rw [writeSeq]
    rw [writeSeq_getD_miss stop n vs _ (k + 1) p (fun j hj => by
      have h2 := h (j + 1) (by simpa using Nat.succ_lt_succ hj)
      have h3 : k + (j + 1) + stop = k + 1 + j + stop := by omega
      rwa [h3] at h2)]
    refine getD_set_ne _ _ _ _ _ ?_
    have h0 := h 0 (by simp)
    simpa using h0

lemma writeSeq_getD_hit (stop n : Nat) : ∀ (vs : List Nat) (t : List (Option Nat)) (k j : Nat),
    t.length = n → k + vs.length ≤ n → j < vs.length →
    (writeSeq stop n t k vs).getD ((k + j + stop) % n) none = some (vs.getD j 0)
  | v :: vs, t, k, 0, hlen, hle, _ => by
    rw [writeSeq]
    have hn : 0 < n := by simp at hle; omega
    have hmiss : ∀ j', j' < vs.length → (k + 1 + j' + stop) % n ≠ (k + 0 + stop) % n := by
      intro j' hj' hEq
      have h1 : 1 + j' < n := by simp at hle; omega
      refine add_mod_ne (k + stop) (1 + j') n (by omega) h1 ?_
      rw [show k + stop + (1 + j') = k + 1 + j' + stop from by omega, hEq]
      congr 1
    rw [writeSeq_getD_miss stop n vs _ (k + 1) ((k + 0 + stop) % n) hmiss]
    rw [show k + 0 + stop = k + stop from by omega]
    have hpos : (k + stop) % n < t.length := by
      rw [hlen]; exact Nat.mod_lt _ hn
    rw [getD_set_eq t _ _ _ hpos]
    simp
  | v :: vs, t, k, j + 1, hlen, hle, hj => by
    rw [writeSeq]
    have h2 := writeSeq_getD_hit stop n vs (t.set ((k + stop) % n) (some v)) (k + 1) j
      (by simpa using hlen) (by simp at hle ⊢; omega) (by simpa using hj)
    rw [show k + 1 + j + stop = k + (j + 1) + stop from by omega] at h2
    rw [h2]
    simp

lemma length_pySlice (l : List α) (start stop : Nat) (h : stop ≤ l.length) :
    (pySlice l start stop).length = stop - start := by
  simp [pySlice]
  omega

lemma take_pySlice_drop (l : List α) (start stop : Nat) (hs : start ≤ stop) :
    l.take start ++ pySlice l start stop ++ l.drop stop = l := by
  unfold pySlice
  have h1 : l.take start = (l.take stop).take start := by
    rw [List.take_take, Nat.min_eq_left hs]
  rw [h1, List.take_append_drop, List.take_append_drop]

lemma prefill_getElem? (main : List Nat) (start stop p : Nat) (hs : start ≤ stop)
    (h : stop ≤ main.length) (hp : p < main.length) :
    (prefill main start stop)[p]? =
      if start ≤ p ∧ p < stop then some (some (main.getD p 0)) else some none := by
  have hA : ((List.replicate main.length (none : Option Nat)).take start).length = start := by
    simp
    omega
  have hB : ((pySlice main start stop).map some).length = stop - start := by
    simp [length_pySlice main start stop h]
  unfold prefill sliceAssign
  by_cases hc1 : p < start
  · rw [if_neg (by omega)]
    rw [List.getElem?_append_left (by simp [hA, hB]; omega)]
    rw [List.getElem?_append_left (by rw [hA]; omega)]
    rw [List.getElem?_take_of_lt hc1, List.getElem?_replicate_of_lt hp]
  · by_cases hc2 : p < stop
    · rw [if_pos ⟨by omega, hc2⟩]
      rw [List.getElem?_append_left (by simp [hA, hB]; omega)]
      rw [List.getElem?_append_right (by rw [hA]; omega), hA]
      rw [List.getElem?_map]
      unfold pySlice
      rw [List.getElem?_drop, show start + (p - start) = p from by omega]
      rw [List.getElem?_take_of_lt hc2, List.getElem?_eq_getElem hp]
      simp [List.getD_eq_getElem?_getD, List.getElem?_eq_getElem hp]
    · rw [if_neg (by omega)]
      rw [List.getElem?_append_right (by simp [hA, hB]; omega)]
      rw [List.length_append, hA, hB, show start + (stop - start) = stop from by omega]
      rw [List.getElem?_drop, show stop + (p - stop) = p from by omega]
      rw [List.getElem?_replicate_of_lt hp]

lemma prefill_length (main : List Nat) (start stop : Nat) (hs : start ≤ stop)
    (h : stop ≤ main.length) : (prefill main start stop).length = main.length := by
  simp [prefill, sliceAssign, length_pySlice main start stop h]
  omega

lemma prefill_getD (main : List Nat) (start stop p : Nat) (hs : start ≤ stop)
    (h : stop ≤ main.length) (hp : p < main.length) :
    (prefill main start stop).getD p none =
      if start ≤ p ∧ p < stop then some (main.getD p 0) else none := by
  rw [List.getD_eq_getElem?_getD, prefill_getElem? main start stop p hs h hp]
  by_cases hc : start ≤ p ∧ p < stop
  · rw [if_pos hc, if_pos hc]
    rfl
  · rw [if_neg hc, if_neg hc]
    rfl

lemma pySlice_prefill (main : List Nat) (start stop : Nat) (hs : start ≤ stop)
    (h : stop ≤ main.length) :
    pySlice (prefill main start stop) start stop = (pySlice main start stop).map some := by
  apply List.ext_getElem?
  intro i
  by_cases hi : i < stop - start
  · have hlpre : (prefill main start stop).length = main.length :=
      prefill_length main start stop hs h
    show ((( prefill main start stop).take stop).drop start)[i]? = _
    rw [List.getElem?_drop, List.getElem?_take_of_lt (show start + i < stop by omega)]
    rw [prefill_getElem? main start stop (start + i) hs h (by omega)]
    rw [if_pos ⟨by omega, by omega⟩]
    rw [List.getElem?_map]
    unfold pySlice
    rw [List.getElem?_drop, List.getElem?_take_of_lt (show start + i < stop by omega)]
    rw [List.getElem?_eq_getElem (show start + i < main.length by omega)]
    simp [List.getD_eq_getElem?_getD, List.getElem?_eq_getElem
      (show start + i < main.length by omega)]
  · rw [List.getElem?_eq_none, List.getElem?_eq_none]
    · simp [length_pySlice main start stop h]
      omega
    · rw [length_pySlice _ start stop (by rw [prefill_length main start stop hs h]; exact h)]
      omega

lemma cyc_perm_self (sec : List Nat) (stop : Nat) (hn : 0 < sec.length) :
    ((List.range sec.length).map (fun s => sec.getD ((s + stop) % sec.length) 0)).Perm sec := by
  have hEq : (List.range sec.length).map (fun s => sec.getD ((s + stop) % sec.length) 0)
      = sec.rotate stop := by
    apply List.ext_getElem
    · simp
    · intro i h1 h2
      rw [List.getElem_map, List.getElem_range, List.getElem_rotate]
      rw [List.getD_eq_getElem?_getD,
        List.getElem?_eq_getElem (Nat.mod_lt _ hn)]
      rfl
  rw [hEq]
  exact List.rotate_perm sec stop

/-- The primary parent's swath followed by the accepted secondary values is a
permutation of the primary parent: the multiset heart of the OX1 invariant. -/
lemma pySlice_append_missing_perm (main sec : List Nat) (start stop : Nat)
    (hnodup : main.Nodup) (hperm : sec.Perm main)
    (hs : start ≤ stop) (hstop : stop ≤ main.length) (hn : 0 < main.length) :
    (pySlice main start stop ++ missingOf main sec start stop).Perm main := by
  have hslen : sec.length = main.length := hperm.length_eq
  have hcyc := cyc_perm_self sec stop (by omega)
  rw [hslen] at hcyc
  have hmp : (missingOf main sec start stop).Perm
      ((main.filter (fun v => decide (v ∉ pySlice main start stop)))) := by
    unfold missingOf
    exact (hcyc.trans hperm).filter _
  have hdecomp := take_pySlice_drop main start stop hs
  have hnd2 : (main.take start ++ pySlice main start stop ++ main.drop stop).Nodup := by
    rw [hdecomp]; exact hnodup
  rw [List.append_assoc] at hnd2
  rw [List.nodup_append] at hnd2
  obtain ⟨hndA, hndSB, hdisjA⟩ := hnd2
  rw [List.nodup_append] at hndSB
  obtain ⟨hndS, hndB, hdisjSB⟩ := hndSB
  have hfiltA : (main.take start).filter (fun v => decide (v ∉ pySlice main start stop))
      = main.take start := by
    rw [List.filter_eq_self]
    intro a ha
    simp only [decide_eq_true_eq]
    exact fun hmem => hdisjA ha (List.mem_append_left _ hmem)
  have hfiltS : (pySlice main start stop).filter
      (fun v => decide (v ∉ pySlice main start stop)) = [] := by
    rw [List.filter_eq_nil_iff]
    intro a ha
    simp [ha]
  have hfiltB : (main.drop stop).filter (fun v => decide (v ∉ pySlice main start stop))
      = main.drop stop := by
    rw [List.filter_eq_self]
    intro a ha
    simp only [decide_eq_true_eq]
    exact fun hmem => hdisjSB hmem ha
  have hfilt : main.filter (fun v => decide (v ∉ pySlice main start stop))
      = main.take start ++ main.drop stop := by
    have h1 : (main.take start ++ pySlice main start stop ++ main.drop stop).filter
        (fun v => decide (v ∉ pySlice main start stop))
        = main.take start ++ main.drop stop := by
      rw [List.append_assoc, List.filter_append, List.filter_append,
        hfiltA, hfiltS, hfiltB, List.nil_append]
    rwa [hdecomp] at h1
  have hmp2 : (missingOf main sec start stop).Perm (main.take start ++ main.drop stop) :=
    hmp.trans (by rw [hfilt])
  refine List.Perm.trans (List.Perm.append (List.Perm.refl (pySlice main start stop)) hmp2) ?_
  have hassoc : pySlice main start stop ++ (main.take start ++ main.drop stop)
      = (pySlice main start stop ++ main.take start) ++ main.drop stop :=
    (List.append_assoc _ _ _).symm
  rw [hassoc]
  have h2 : ((pySlice main start stop ++ main.take start) ++ main.drop stop).Perm
      ((main.take start ++ pySlice main start stop) ++ main.drop stop) :=
    (List.perm_append_comm).append_right _
  exact h2.trans (by rw [hdecomp])

lemma missing_length (main sec : List Nat) (start stop : Nat)
    (hnodup : main.Nodup) (hperm : sec.Perm main)
    (hs : start ≤ stop) (hstop : stop ≤ main.length) (hn : 0 < main.length) :
    (missingOf main sec start stop).length = main.length - (stop - start) := by
  have h := (pySlice_append_missing_perm main sec start stop hnodup hperm hs hstop hn).length_eq
  rw [List.length_append, length_pySlice main start stop hstop] at h
  omega

lemma writePos_out (start stop n : Nat) (hs : start ≤ stop) (hstop : stop ≤ n) :
    ∀ j, j < n - (stop - start) → ¬ (start ≤ (j + stop) % n ∧ (j + stop) % n < stop) := by
  rintro j hj ⟨ha, hb⟩
  by_cases hc : j + stop < n
  · rw [Nat.mod_eq_of_lt hc] at ha hb
    omega
  · have h2 : (j + stop) % n = j + stop - n := mod_sub_window _ _ (by omega) (by omega)
    rw [h2] at ha hb
    omega

lemma writePos_inv (start stop n p : Nat) (hs : start ≤ stop) (hstop : stop ≤ n)
    (hp : p < n) (hout : ¬ (start ≤ p ∧ p < stop)) :
    (p + n - stop) % n < n - (stop - start) ∧ ((p + n - stop) % n + stop) % n = p := by
  by_cases hc : stop ≤ p
  · have h1 : (p + n - stop) % n = p - stop := by
      rw [show p + n - stop = (p - stop) + n from by omega, Nat.add_mod_right,
        Nat.mod_eq_of_lt (by omega)]
    refine ⟨by rw [h1]; omega, ?_⟩
    rw [h1, show p - stop + stop = p from by omega, Nat.mod_eq_of_lt hp]
  · have hpl : p < start := by omega
    have h1 : (p + n - stop) % n = p + n - stop := Nat.mod_eq_of_lt (by omega)
    refine ⟨by rw [h1]; omega, ?_⟩
    rw [h1, show p + n - stop + stop = p + n from by omega, Nat.add_mod_right,
      Nat.mod_eq_of_lt hp]

lemma eq_of_getD (d : α) (l₁ l₂ : List α) (hlen : l₁.length = l₂.length)
    (h : ∀ p, p < l₁.length → l₁.getD p d = l₂.getD p d) : l₁ = l₂ := by
  apply List.ext_getElem hlen
  intro i h1 h2
  have h3 := h i h1
  rw [List.getD_eq_getElem?_getD, List.getD_eq_getElem?_getD,
    List.getElem?_eq_getElem h1, List.getElem?_eq_getElem h2] at h3
  simpa using h3

lemma ox1Ref_length (main sec : List Nat) (start stop : Nat) :
    (ox1Ref main sec start stop).length = main.length := by
  unfold ox1Ref
  simp

lemma ox1Ref_getD (main sec : List Nat) (start stop p : Nat) (hp : p < main.length) :
    (ox1Ref main sec start stop).getD p 0 =
      if start ≤ p ∧ p < stop then main.getD p 0
      else (missingOf main sec start stop).getD ((p + main.length - stop) % main.length) 0 := by
  unfold ox1Ref
  rw [List.getD_eq_getElem?_getD, List.getElem?_eq_getElem (by simpa using hp)]
  rw [List.getElem_map, List.getElem_range]
  rfl

/-- The fill loop of `ox1` computes exactly the child described by the
specification: the central refinement lemma behind claims C1 and C4. -/
lemma ox1With_eq_ref (main sec : List Nat) (start stop : Nat)
    (hnodup : main.Nodup) (hperm : sec.Perm main)
    (hs : start ≤ stop) (hstop : stop ≤ main.length) (hn : 0 < main.length) :
    ox1With main sec start stop = (ox1Ref main sec start stop).map some := by
  have hslen : sec.length = main.length := hperm.length_eq
  have hstep1 : ox1With main sec start stop =
      writeSeq stop main.length (prefill main start stop) 0 (missingOf main sec start stop) := by
    unfold ox1With
    rw [fill_eq_foldl_fillStep]
    rw [pySlice_prefill main start stop hs hstop]
    rw [hslen]
    rw [foldl_fillStep_eq_writeSeq]
    show writeSeq stop main.length (prefill main start stop) 0
      (((List.range main.length).map (fun s => sec.getD ((s + stop) % main.length) 0)).filter
        (fun v => decide (some v ∉ (pySlice main start stop).map some))) = _
    congr 1
    unfold missingOf
    apply List.filter_congr
    intro v _
    have hiff : some v ∉ (pySlice main start stop).map some ↔ v ∉ pySlice main start stop := by
      constructor
      · intro hnmem hmem
        exact hnmem (List.mem_map_of_mem some hmem)
      · intro hnmem hmem
        obtain ⟨w, hw, hww⟩ := List.mem_map.mp hmem
        cases hww
        exact hnmem hw
    exact decide_eq_decide.mpr hiff
  have hmlen := missing_length main sec start stop hnodup hperm hs hstop hn
  have hplen := prefill_length main start stop hs hstop
  have hlen1 : (ox1With main sec start stop).length = main.length := by
    rw [hstep1, writeSeq_length, hplen]
  apply eq_of_getD none
  · rw [hlen1, List.length_map, ox1Ref_length]
  · intro p hp'
    have hp : p < main.length := by rwa [hlen1] at hp'
    have hR : ((ox1Ref main sec start stop).map some).getD p none =
        some ((ox1Ref main sec start stop).getD p 0) := by
      rw [List.getD_eq_getElem?_getD, List.getD_eq_getElem?_getD, List.getElem?_map,
        List.getElem?_eq_getElem (by rw [ox1Ref_length]; exact hp)]
      rfl
    rw [hstep1, hR, ox1Ref_getD main sec start stop p hp]
    by_cases hcase : start ≤ p ∧ p < stop
    · rw [if_pos hcase]
      rw [writeSeq_getD_miss stop main.length (missingOf main sec start stop)
        (prefill main start stop) 0 p ?_]
      · rw [prefill_getD main start stop p hs hstop hp, if_pos hcase]
      · intro j hj hEq
        rw [hmlen] at hj
        have hout := writePos_out start stop main.length hs hstop j hj
        rw [show 0 + j + stop = j + stop from by omega] at hEq
        rw [hEq] at hout
        exact hout hcase
    · rw [if_neg hcase]
      obtain ⟨hjlt, hjeq⟩ := writePos_inv start stop main.length p hs hstop hp hcase
      have hhit := writeSeq_getD_hit stop main.length (missingOf main sec start stop)
        (prefill main start stop) 0 ((p + main.length - stop) % main.length) hplen
        (by rw [hmlen]; omega) (by rw [hmlen]; exact hjlt)
      rw [show 0 + (p + main.length - stop) % main.length + stop
          = (p + main.length - stop) % main.length + stop from by omega] at hhit
      rw [hjeq] at hhit
      exact hhit

lemma getD_append_left (l₁ l₂ : List α) (p : Nat) (d : α) (h : p < l₁.length) :
    (l₁ ++ l₂).getD p d = l₁.getD p d := by
  rw [List.getD_eq_getElem?_getD, List.getD_eq_getElem?_getD, List.getElem?_append_left h]

lemma getD_append_right (l₁ l₂ : List α) (p : Nat) (d : α) (h : l₁.length ≤ p) :
    (l₁ ++ l₂).getD p d = l₂.getD (p - l₁.length) d := by
  rw [List.getD_eq_getElem?_getD, List.getD_eq_getElem?_getD, List.getElem?_append_right h]

lemma getD_take (l : List α) (i j : Nat) (d : α) (h : j < i) :
    (l.take i).getD j d = l.getD j d := by
  rw [List.getD_eq_getElem?_getD, List.getD_eq_getElem?_getD, List.getElem?_take_of_lt h]

lemma getD_drop (l : List α) (i j : Nat) (d : α) :
    (l.drop i).getD j d = l.getD (i + j) d := by
  rw [List.getD_eq_getElem?_getD, List.getD_eq_getElem?_getD, List.getElem?_drop]

lemma pySlice_getD (l : List α) (start stop j : Nat) (d : α) (h : start + j < stop) :
    (pySlice l start stop).getD j d = l.getD (start + j) d := by
  unfold pySlice
  rw [getD_drop, getD_take _ _ _ _ h]

/-- The OX1 spec child laid out as three contiguous blocks: the tail of the
accepted secondary values (those written past the wrap-around), the primary
swath, and the head of the accepted secondary values. -/
lemma ox1Ref_decomp (main sec : List Nat) (start stop : Nat)
    (hnodup : main.Nodup) (hperm : sec.Perm main)
    (hs : start ≤ stop) (hstop : stop ≤ main.length) (hn : 0 < main.length) :
    ox1Ref main sec start stop =
      (missingOf main sec start stop).drop (main.length - stop) ++ pySlice main start stop
        ++ (missingOf main sec start stop).take (main.length - stop) := by
  have hmlen := missing_length main sec start stop hnodup hperm hs hstop hn
  have hX : ((missingOf main sec start stop).drop (main.length - stop)).length = start := by
    rw [List.length_drop, hmlen]
    omega
  have hSW : (pySlice main start stop).length = stop - start :=
    length_pySlice main start stop hstop
  apply eq_of_getD 0
  · rw [ox1Ref_length]
    simp only [List.length_append, hX, hSW, List.length_take, hmlen]
    omega
  · intro p hp'
    have hp : p < main.length := by rwa [ox1Ref_length] at hp'
    rw [ox1Ref_getD main sec start stop p hp]
    by_cases hc1 : p < start
    · rw [if_neg (by omega)]
      rw [getD_append_left _ _ _ _ (by rw [List.length_append, hX, hSW]; omega)]
      rw [getD_append_left _ _ _ _ (by rw [hX]; omega)]
      rw [getD_drop]
      rw [show (p + main.length - stop) % main.length = main.length - stop + p from by
        rw [Nat.mod_eq_of_lt (by omega)]; omega]
    · by_cases hc2 : p < stop
      · rw [if_pos ⟨by omega, hc2⟩]
        rw [getD_append_left _ _ _ _ (by rw [List.length_append, hX, hSW]; omega)]
        rw [getD_append_right _ _ _ _ (by rw [hX]; omega), hX]
        rw [pySlice_getD main start stop (p - start) 0 (by omega)]
        rw [show start + (p - start) = p from by omega]
      · rw [if_neg (by omega)]
        rw [getD_append_right _ _ _ _ (by rw [List.length_append, hX, hSW]; omega)]
        rw [List.length_append, hX, hSW, show start + (stop - start) = stop from by omega]
        rw [getD_take _ _ _ _ (by omega)]
        rw [show (p + main.length - stop) % main.length = p - stop from by
          rw [mod_sub_window _ _ (by omega) (by omega)]; omega]

/-- The ox1 child (for any swath inside the tour) is a permutation of the
primary parent. -/
lemma ox1Core_perm (main sec : List Nat) (start stop : Nat)
    (hnodup : main.Nodup) (hperm : sec.Perm main)
    (hs : start ≤ stop) (hstop : stop ≤ main.length) (hn : 0 < main.length) :
    (ox1Core main sec start stop).Perm main := by
  unfold ox1Core
  rw [ox1With_eq_ref main sec start stop hnodup hperm hs hstop hn, List.map_map]
  have h2 : ((fun o => Option.getD o 0) ∘ some) = fun v : Nat => v := funext fun v => rfl
  rw [h2, List.map_id']
  rw [ox1Ref_decomp main sec start stop hnodup hperm hs hstop hn]
  have hTX : (missingOf main sec start stop).take (main.length - stop)
      ++ (missingOf main sec start stop).drop (main.length - stop)
      = missingOf main sec start stop := List.take_append_drop _ _
  refine List.Perm.trans ?_
    (pySlice_append_missing_perm main sec start stop hnodup hperm hs hstop hn)
  conv_rhs => rw [← hTX]
  refine List.Perm.trans List.perm_append_comm ?_
  conv_lhs => rw [← List.append_assoc]
  exact List.perm_append_comm

lemma pickMin_mem (g : Graph) (prev : Node) (rest : List Node) :
    ∀ a, pickMin g prev a rest ∈ a :: rest := by
  induction rest with
  | nil => intro a; simp [pickMin]
  | cons c cs ih =>
    intro a
    unfold pickMin at ih ⊢
    rw [List.foldl_cons]
    by_cases h : g.distance prev c < g.distance prev a
    · rw [if_pos h]
      rcases List.mem_cons.mp (ih c) with h1 | h1
      · exact List.mem_cons_of_mem a (by rw [h1]; exact List.mem_cons_self c cs)
      · exact List.mem_cons_of_mem a (List.mem_cons_of_mem c h1)
    · rw [if_neg h]
      rcases List.mem_cons.mp (ih a) with h1 | h1
      · rw [h1]; exact List.mem_cons_self a _
      · exact List.mem_cons_of_mem a (List.mem_cons_of_mem c h1)

lemma greedyGo_perm (g : Graph) : ∀ (fuel : Nat) (prev : Node) (available : List Node),
    fuel = available.length → (greedyGo g fuel prev available).Perm available := by
  intro fuel
  induction fuel with
  | zero =>
    intro prev available h
    cases available with
    | nil => exact List.Perm.refl _
    | cons a rest => simp at h
  | succ f ih =>
    intro prev available h
    cases available with
    | nil => simp at h
    | cons a rest =>
      show ((pickMin g prev a rest) :: greedyGo g f (pickMin g prev a rest)
        ((a :: rest).erase (pickMin g prev a rest))).Perm (a :: rest)
      have hmem := pickMin_mem g prev rest a
      have hlen : f = ((a :: rest).erase (pickMin g prev a rest)).length := by
        rw [List.length_erase_of_mem hmem]
        simp at h ⊢
        omega
      exact ((ih _ _ hlen).cons _).trans (List.perm_cons_erase hmem).symm

lemma greedy_perm (g : Graph) (hne : g.nodes ≠ []) :
    ∃ t, greedy g = .ok t ∧ t.Perm g.nodes := by
  cases hnodes : g.nodes with
  | nil => exact absurd hnodes hne
  | cons s rest =>
    refine ⟨s :: greedyGo g rest.length s rest, ?_, ?_⟩
    · unfold greedy
      rw [hnodes]
    · exact (greedyGo_perm g rest.length s rest rfl).cons s

lemma simApply_perm (seq : List α) (start stop : Nat)
    (hs : start ≤ stop) (hstop : stop ≤ seq.length) :
    (simApply seq start stop).Perm seq := by
  unfold simApply sliceAssign
  conv_rhs => rw [← take_pySlice_drop seq start stop hs]
  exact List.Perm.append_right _ (List.Perm.append_left _ (List.reverse_perm _))

lemma perm_props {t base : List Nat} (hp : t.Perm base) (hnd : base.Nodup) :
    t.length = base.length ∧ t.Nodup ∧ ∀ x, x ∈ t ↔ x ∈ base :=
  ⟨hp.length_eq, hp.nodup_iff.mpr hnd, fun _ => hp.mem_iff⟩

/-- Claim C1: on a graph with at least 3 (distinct) nodes, the greedy
constructor's tour, the ox1 child of two tours that are permutations of the
node set, and the in-place mutation of such a tour by sim, are all
permutations of the full node set: same length as the node set, no duplicate
elements, and set-equal to the node set.  The swath hypotheses
`start ≤ stop ≤ N` cover every slice `_random_slice` can produce, including
the out-of-contract ones the buggy `_get_valid_swath` can return. -/
theorem permutation_invariant (g : Graph) (hn3 : 3 ≤ g.nodes.length)
    (hnodup : g.nodes.Nodup) (main sec tour : Tour)
    (hm : main.Perm g.nodes) (hsec : sec.Perm g.nodes) (ht : tour.Perm g.nodes)
    (start stop : Nat) (hs : start ≤ stop) (hstop : stop ≤ g.nodes.length) :
    (∃ t0, greedy g = .ok t0 ∧ t0.length = g.nodes.length ∧ t0.Nodup ∧
      ∀ x, x ∈ t0 ↔ x ∈ g.nodes) ∧
    ((ox1Core main sec start stop).length = g.nodes.length ∧
      (ox1Core main sec start stop).Nodup ∧
      (∀ x, x ∈ ox1Core main sec start stop ↔ x ∈ g.nodes)) ∧
    ((simApply tour start stop).length = g.nodes.length ∧
      (simApply tour start stop).Nodup ∧
      (∀ x, x ∈ simApply tour start stop ↔ x ∈ g.nodes)) := by
  refine ⟨?_, ?_, ?_⟩
  · obtain ⟨t0, h1, h2⟩ := greedy_perm g (by intro hnil; rw [hnil] at hn3; simp at hn3)
    exact ⟨t0, h1, perm_props h2 hnodup⟩
  · have hperm : (ox1Core main sec start stop).Perm main := by
      refine ox1Core_perm main sec start stop (hm.nodup_iff.mpr hnodup)
        (hsec.trans hm.symm) hs ?_ ?_
      · rw [hm.length_eq]; exact hstop
      · rw [hm.length_eq]; omega
    exact perm_props (hperm.trans hm) hnodup
  · have hperm : (simApply tour start stop).Perm tour := by
      refine simApply_perm tour start stop hs ?_
      rw [ht.length_eq]; exact hstop
    exact perm_props (hperm.trans ht) hnodup

theorem permutation_invariant_witness :
    (ox1Core [0, 1, 2] [1, 2, 0] 0 2).Nodup ∧ (simApply [2, 0, 1] 0 2).Nodup :=
  ⟨(permutation_invariant ⟨[0, 1, 2], fun _ _ => 0⟩ (by decide) (by decide)
      [0, 1, 2] [1, 2, 0] [2, 0, 1] (by decide) (by decide) (by decide)
      0 2 (by decide) (by decide)).2.1.2.1,
   (permutation_invariant ⟨[0, 1, 2], fun _ _ => 0⟩ (by decide) (by decide)
      [0, 1, 2] [1, 2, 0] [2, 0, 1] (by decide) (by decide) (by decide)
      0 2 (by decide) (by decide)).2.2.2.1⟩

/-- Claim C4: for parents of equal length N ≥ 3 that are permutations of a
common node set and a fixed valid swath, the ox1 child is a deterministic
function of its arguments, equal position by position to the child described
by the spec (`ox1Ref`): the swath is copied from the primary parent and the
remaining positions are filled from the secondary parent cyclically from
index `stop`, skipping swath values. -/
theorem ox1_fixed_swath_spec (main sec : Tour) (start stop : Nat)
    (hnodup : main.Nodup) (hperm : sec.Perm main)
    (hN : 3 ≤ main.length) (hss : start < stop) (hstop : stop ≤ main.length)
    (hlen2 : 2 ≤ stop - start) (hnotall : stop - start ≤ main.length - 1) :
    ox1With main sec start stop = (ox1Ref main sec start stop).map some ∧
    ox1Core main sec start stop = ox1Ref main sec start stop := by
  have h1 := ox1With_eq_ref main sec start stop hnodup hperm (le_of_lt hss) hstop (by omega)
  refine ⟨h1, ?_⟩
  unfold ox1Core
  rw [h1, List.map_map]
  have h2 : ((fun o => Option.getD o 0) ∘ some) = fun v : Nat => v := funext fun v => rfl
  rw [h2, List.map_id']

theorem ox1_fixed_swath_spec_witness :
    ox1Core [1, 2, 3, 4] [4, 3, 2, 1] 1 3 = ox1Ref [1, 2, 3, 4] [4, 3, 2, 1] 1 3 :=
  (ox1_fixed_swath_spec [1, 2, 3, 4] [4, 3, 2, 1] 1 3 (by decide) (by decide)
    (by decide) (by decide) (by decide) (by decide) (by decide)).2

/-- Claim C2 (code bug): with sequence length 3 and the two successive valid
cut-point draws (0, 3) and (1, 2), `_get_valid_swath` returns the swath
(1, 2), which selects a single element.  The second resampling loop
re-checks only the full-cover condition, so its redraws can violate the
minimum-length condition established by the first loop, contradicting the
function's own docstring (swath length in `[2, seq_length - 1]`) and `sim`'s
docstring. -/
theorem get_valid_swath_short_swath :
    _get_valid_swath 3 [(0, 3), (1, 2)] = .ok (1, 2) ∧ ¬ (2 ≤ (2 : Nat) - 1) :=
  ⟨rfl, by decide⟩

lemma swathLoopA_spec : ∀ (draws : List (Nat × Nat)) (s r : Nat × Nat)
    (rest : List (Nat × Nat)), swathLoopA s draws = some (r, rest) →
    (r = s ∨ ∃ d ∈ draws, r = randomSlice d) ∧ ∀ x ∈ rest, x ∈ draws
  | [], s, r, rest => by
    intro h
    unfold swathLoopA at h
    split at h
    · simp at h
    · rw [Option.some_inj] at h
      cases h
      exact ⟨Or.inl rfl, by simp⟩
  | d :: ds, s, r, rest => by
    intro h
    unfold swathLoopA at h
    split at h
    · obtain ⟨h1, h2⟩ := swathLoopA_spec ds (randomSlice d) r rest h
      refine ⟨?_, fun x hx => List.mem_cons_of_mem d (h2 x hx)⟩
      rcases h1 with rfl | ⟨d2, hd2, rfl⟩
      · exact Or.inr ⟨d, List.mem_cons_self d ds, rfl⟩
      · exact Or.inr ⟨d2, List.mem_cons_of_mem d hd2, rfl⟩
    · rw [Option.some_inj] at h
      cases h
      exact ⟨Or.inl rfl, fun x hx => hx⟩

lemma swathLoopB_spec : ∀ (draws : List (Nat × Nat)) (n : Nat) (s r : Nat × Nat),
    swathLoopB n s draws = some r →
    r = s ∨ ∃ d ∈ draws, r = randomSlice d
  | [], n, s, r => by
    intro h
    unfold swathLoopB at h
    split at h
    · simp at h
    · rw [Option.some_inj] at h
      exact Or.inl h.symm
  | d :: ds, n, s, r => by
    intro h
    unfold swathLoopB at h
    split at h
    · rcases swathLoopB_spec ds n (randomSlice d) r h with rfl | ⟨d2, hd2, rfl⟩
      · exact Or.inr ⟨d, List.mem_cons_self d ds, rfl⟩
      · exact Or.inr ⟨d2, List.mem_cons_of_mem d hd2, rfl⟩
    · rw [Option.some_inj] at h
      exact Or.inl h.symm

lemma randomSlice_le (d : Nat × Nat) : (randomSlice d).1 ≤ (randomSlice d).2 :=
  min_le_max

lemma get_valid_swath_ok_shape (n : Nat) (draws : List (Nat × Nat)) (sw : Nat × Nat)
    (hok : _get_valid_swath n draws = .ok sw) :
    2 < n ∧ (∃ d ∈ draws, sw = randomSlice d) := by
  unfold _get_valid_swath at hok
  split at hok
  case isTrue h2 =>
    refine ⟨h2, ?_⟩
    split at hok
    · simp at hok
    case _ d ds =>
      split at hok
      · simp at hok
      case _ s rest hA =>
        split at hok
        · simp at hok
        case _ s2 hB =>
          rw [Except.ok.injEq] at hok
          rw [← hok]
          obtain ⟨hAo, hArest⟩ := swathLoopA_spec ds (randomSlice d) s rest hA
          rcases swathLoopB_spec rest n s _ hB with rfl | ⟨d2, hd2, rfl⟩
          · rcases hAo with rfl | ⟨d3, hd3, rfl⟩
            · exact ⟨d, List.mem_cons_self d ds, rfl⟩
            · exact ⟨d3, List.mem_cons_of_mem d hd3, rfl⟩
          · exact ⟨d2, List.mem_cons_of_mem d (hArest d2 hd2), rfl⟩
  case isFalse => simp at hok

/-- Any swath `_get_valid_swath` returns is ordered and, when the draws are
valid samples from `range(seq_length + 1)`, bounded by the sequence length. -/
lemma swath_bounds (n : Nat) (draws : List (Nat × Nat)) (sw : Nat × Nat)
    (hb : ∀ d ∈ draws, d.1 ≤ n ∧ d.2 ≤ n)
    (hok : _get_valid_swath n draws = .ok sw) :
    sw.1 ≤ sw.2 ∧ sw.2 ≤ n := by
  obtain ⟨-, d, hd, rfl⟩ := get_valid_swath_ok_shape n draws sw hok
  obtain ⟨hb1, hb2⟩ := hb d hd
  exact ⟨randomSlice_le d, by simp [randomSlice]; omega⟩

lemma getD_mem (l : List α) (i : Nat) (d : α) (h : i < l.length) : l.getD i d ∈ l := by
  rw [List.getD_eq_getElem?_getD, List.getElem?_eq_getElem h]
  exact List.getElem_mem h

lemma reverse_getD (l : List α) (j : Nat) (d : α) (h : j < l.length) :
    l.reverse.getD j d = l.getD (l.length - 1 - j) d := by
  rw [List.getD_eq_getElem?_getD, List.getD_eq_getElem?_getD,
    List.getElem?_eq_getElem (by simpa using h),
    List.getElem?_eq_getElem (by omega)]
  simp [List.getElem_reverse]

lemma simApply_length (seq : List α) (start stop : Nat)
    (hs : start ≤ stop) (hstop : stop ≤ seq.length) :
    (simApply seq start stop).length = seq.length := by
  simp [simApply, sliceAssign, pySlice]
  omega

lemma simApply_getD_frame (seq : Tour) (start stop i : Nat)
    (hs : start ≤ stop) (hstop : stop ≤ seq.length) (hi : i < seq.length)
    (hout : i < start ∨ stop ≤ i) :
    (simApply seq start stop).getD i 0 = seq.getD i 0 := by
  have hrev : ((pySlice seq start stop).reverse).length = stop - start := by
    rw [List.length_reverse, length_pySlice seq start stop hstop]
  have htk : (seq.take start).length = start := by simp; omega
  unfold simApply sliceAssign
  rcases hout with hlt | hge
  · rw [getD_append_left _ _ _ _ (by rw [List.length_append, htk, hrev]; omega)]
    rw [getD_append_left _ _ _ _ (by rw [htk]; omega)]
    exact getD_take seq start i 0 hlt
  · rw [getD_append_right _ _ _ _ (by rw [List.length_append, htk, hrev]; omega)]
    rw [List.length_append, htk, hrev, show start + (stop - start) = stop from by omega]
    rw [getD_drop]
    rw [show stop + (i - stop) = i from by omega]

lemma simApply_getD_rev (seq : Tour) (start stop i : Nat)
    (hstop : stop ≤ seq.length) (hi1 : start ≤ i) (hi2 : i < stop) :
    (simApply seq start stop).getD i 0 = seq.getD (start + stop - 1 - i) 0 := by
  have hs : start ≤ stop := by omega
  have hrev : ((pySlice seq start stop).reverse).length = stop - start := by
    rw [List.length_reverse, length_pySlice seq start stop hstop]
  have htk : (seq.take start).length = start := by simp; omega
  unfold simApply sliceAssign
  rw [getD_append_left _ _ _ _ (by rw [List.length_append, htk, hrev]; omega)]
  rw [getD_append_right _ _ _ _ (by rw [htk]; omega), htk]
  rw [reverse_getD _ _ _ (by rw [length_pySlice seq start stop hstop]; omega)]
  rw [length_pySlice seq start stop hstop]
  rw [pySlice_getD seq start stop _ 0 (by omega)]
  rw [show start + (stop - start - 1 - (i - start)) = start + stop - 1 - i from by omega]

/-- Claim C7: for a tour of length > 2, `sim` applies the swath chosen by
`_get_valid_swath` in place: positions inside `[start, stop)` are reversed
and every position outside the swath holds exactly its previous value. -/
theorem sim_swath_reversal_frame (tour : Tour) (draws : List (Nat × Nat))
    (sw : Nat × Nat) (hlen : 2 < tour.length)
    (hb : ∀ d ∈ draws, d.1 ≤ tour.length ∧ d.2 ≤ tour.length)
    (hok : _get_valid_swath tour.length draws = .ok sw) :
    sim tour draws = .ok (simApply tour sw.1 sw.2) ∧
    (simApply tour sw.1 sw.2).length = tour.length ∧
    (∀ i, i < tour.length → (i < sw.1 ∨ sw.2 ≤ i) →
      (simApply tour sw.1 sw.2).getD i 0 = tour.getD i 0) ∧
    (∀ i, sw.1 ≤ i → i < sw.2 →
      (simApply tour sw.1 sw.2).getD i 0 = tour.getD (sw.1 + sw.2 - 1 - i) 0) := by
  obtain ⟨hsw1, hsw2⟩ := swath_bounds tour.length draws sw hb hok
  refine ⟨?_, simApply_length tour sw.1 sw.2 hsw1 hsw2, ?_, ?_⟩
  · unfold sim
    rw [if_pos hlen, hok]
  · intro i h1 h2
    exact simApply_getD_frame tour sw.1 sw.2 i hsw1 hsw2 h1 h2
  · intro i h1 h2
    exact simApply_getD_rev tour sw.1 sw.2 i hsw2 h1 h2

theorem sim_swath_reversal_frame_witness :
    sim [5, 6, 7, 8] [(1, 3)] = .ok (simApply [5, 6, 7, 8] 1 3) ∧
    (simApply [5, 6, 7, 8] 1 3).getD 0 0 = 5 ∧
    (simApply [5, 6, 7, 8] 1 3).getD 1 0 = 7 := by
  have h := sim_swath_reversal_frame [5, 6, 7, 8] [(1, 3)] (1, 3) (by decide)
    (by decide) rfl
  exact ⟨h.1, by rw [h.2.2.1 0 (by decide) (by decide)]; decide, by
    rw [h.2.2.2 1 (by decide) (by decide)]; decide⟩

/-- Claim C8: `sim` on a sequence of length ≤ 2, `_get_valid_swath` on a
length ≤ 2, and `ox1` on parents of unequal length all fail with the
invalid-argument (`assert`) condition checked at the start of the operation,
before any randomness is consumed or any output produced (the conclusion
holds for every draw list). -/
theorem precondition_asserts (seq main sec : Tour) (draws : List (Nat × Nat))
    (n : Nat) :
    (seq.length ≤ 2 → sim seq draws = .error .assertFail) ∧
    (n ≤ 2 → _get_valid_swath n draws = .error .assertFail) ∧
    (main.length ≠ sec.length → ox1 main sec draws = .error .assertFail) := by
  refine ⟨fun h => ?_, fun h => ?_, fun h => ?_⟩
  · unfold sim
    rw [if_neg (by omega)]
  · unfold _get_valid_swath
    rw [if_neg (by omega)]
  · unfold ox1
    rw [if_neg h]

theorem precondition_asserts_witness :
    sim [1, 2] [(0, 2)] = .error .assertFail ∧
    _get_valid_swath 2 [(0, 2)] = .error .assertFail ∧
    ox1 [1] [2, 3] [(0, 2)] = .error .assertFail :=
  ⟨(precondition_asserts [1, 2] [1] [2, 3] [(0, 2)] 2).1 (by decide),
   (precondition_asserts [1, 2] [1] [2, 3] [(0, 2)] 2).2.1 (by decide),
   (precondition_asserts [1, 2] [1] [2, 3] [(0, 2)] 2).2.2 (by decide)⟩

lemma update_population_length (item : Member) (pop : List Member) :
    (update_population item pop).length = pop.length := by
  cases pop with
  | nil => rfl
  | cons worst rest =>
    show (if item.1 > worst.1 then heappushpop (worst :: rest) item
      else worst :: rest).length = _
    by_cases h : item.1 > worst.1
    · rw [if_pos h,
        (heappushpop_perm worst rest item (pyLt_of_fitness_lt h)).length_eq]
      simp
    · rw [if_neg h]

lemma update_population_mem (item : Member) (pop : List Member) (m : Member)
    (hm : m ∈ update_population item pop) : m = item ∨ m ∈ pop := by
  cases pop with
  | nil => exact Or.inr hm
  | cons worst rest =>
    have hm2 : m ∈ (if item.1 > worst.1 then heappushpop (worst :: rest) item
        else worst :: rest) := hm
    by_cases h : item.1 > worst.1
    · rw [if_pos h,
        (heappushpop_perm worst rest item (pyLt_of_fitness_lt h)).mem_iff] at hm2
      rcases List.mem_cons.mp hm2 with rfl | hm3
      · exact Or.inl rfl
      · exact Or.inr (List.mem_cons_of_mem worst hm3)
    · rw [if_neg h] at hm2
      exact Or.inr hm2

lemma sim_ok (seq : Tour) (draws : List (Nat × Nat)) (hlen : 2 < seq.length)
    (hb : ∀ d ∈ draws, d.1 ≤ seq.length ∧ d.2 ≤ seq.length)
    (hsucc : ∃ sw, _get_valid_swath seq.length draws = .ok sw) :
    ∃ t, sim seq draws = .ok t ∧ t.Perm seq := by
  obtain ⟨sw, hok⟩ := hsucc
  obtain ⟨h1, h2⟩ := swath_bounds seq.length draws sw hb hok
  refine ⟨simApply seq sw.1 sw.2, ?_, simApply_perm seq sw.1 sw.2 h1 h2⟩
  unfold sim
  rw [if_pos hlen, hok]

lemma ox1_ok (main sec : Tour) (draws : List (Nat × Nat))
    (hnodup : main.Nodup) (hperm : sec.Perm main) (hlen : 2 < main.length)
    (hb : ∀ d ∈ draws, d.1 ≤ main.length ∧ d.2 ≤ main.length)
    (hsucc : ∃ sw, _get_valid_swath main.length draws = .ok sw) :
    ∃ t, ox1 main sec draws = .ok t ∧ t.Perm main := by
  obtain ⟨sw, hok⟩ := hsucc
  obtain ⟨h1, h2⟩ := swath_bounds main.length draws sw hb hok
  refine ⟨ox1Core main sec sw.1 sw.2, ?_,
    ox1Core_perm main sec sw.1 sw.2 hnodup hperm h1 h2 (by omega)⟩
  unfold ox1
  rw [if_pos hperm.length_eq.symm, hok]

lemma genLoop_ok (g : Graph) (initial : Tour) (oracles : Nat → List (Nat × Nat))
    (hlen : 2 < initial.length)
    (hb : ∀ k, ∀ d ∈ oracles k, d.1 ≤ initial.length ∧ d.2 ≤ initial.length)
    (hsucc : ∀ k, ∃ sw, _get_valid_swath initial.length (oracles k) = .ok sw) :
    ∀ idxs : List Nat, ∃ rest, genLoop g initial oracles idxs = .ok rest ∧
      rest.length = idxs.length ∧ ∀ m ∈ rest, m.2.Perm initial
  | [] => ⟨[], rfl, rfl, by simp⟩
  | i :: is => by
    obtain ⟨t, hsim, hperm⟩ := sim_ok initial (oracles i) hlen (hb i) (hsucc i)
    obtain ⟨rest, hrest, hlen2, hmem⟩ := genLoop_ok g initial oracles hlen hb hsucc is
    refine ⟨(_get_fitness t g, t) :: rest, ?_, by simp [hlen2], ?_⟩
    · simp only [genLoop, hsim, hrest]
    · intro m hm
      rcases List.mem_cons.mp hm with rfl | hm
      · exact hperm
      · exact hmem m hm

lemma generate_population_ok (g : Graph) (size : Int)
    (oracles : Nat → List (Nat × Nat)) (hn3 : 3 ≤ g.nodes.length) (hsize : 1 ≤ size)
    (hb : ∀ k, ∀ d ∈ oracles k, d.1 ≤ g.nodes.length ∧ d.2 ≤ g.nodes.length)
    (hsucc : ∀ k, ∃ sw, _get_valid_swath g.nodes.length (oracles k) = .ok sw) :
    ∃ pop, generate_population g size oracles = .ok pop ∧ pop.length = size.toNat ∧
      ∀ m ∈ pop, m.2.Perm g.nodes := by
  obtain ⟨t0, hg, hp0⟩ := greedy_perm g (by intro h; rw [h] at hn3; simp at hn3)
  have ht0len : t0.length = g.nodes.length := hp0.length_eq
  obtain ⟨rest, hloop, hrlen, hrmem⟩ := genLoop_ok g t0 oracles (by omega)
    (fun k d hd => by rw [ht0len]; exact hb k d hd)
    (fun k => by rw [ht0len]; exact hsucc k)
    (List.range (size - 1).toNat)
  refine ⟨(_get_fitness t0 g, t0) :: rest, ?_, ?_, ?_⟩
  · simp only [generate_population, hg, hloop]
  · simp only [List.length_cons, hrlen, List.length_range]
    omega
  · intro m hm
    rcases List.mem_cons.mp hm with rfl | hm
    · exact hp0
    · exact (hrmem m hm).trans hp0

/-- Claim C6 counterexample: `generate_population` performs no size
validation.  Called with `size = 0 < 1` on a valid 3-node graph it does not
fail: it returns a 1-member population holding the greedy tour. -/
theorem generate_population_no_size_check :
    generate_population ⟨[0, 1, 2], fun _ _ => 1⟩ 0 (fun _ => []) =
      .ok [(-3, [0, 1, 2])] := rfl

/-- Claim C6 (amended): `generate_population` has no explicit size check.
For a graph with at least 3 nodes and `size ≥ 1` (and successful swath
draws) it returns exactly `size` members.  When the graph has fewer than 3
nodes, it fails via Mutation's precondition (`sim`'s assert) — but only when
`size ≥ 2`, since `size ≤ 1` performs no mutation: then it returns a single
member without any error, for any non-empty graph. -/
theorem generate_population_spec (g : Graph) (size : Int)
    (oracles : Nat → List (Nat × Nat))
    (hb : ∀ k, ∀ d ∈ oracles k, d.1 ≤ g.nodes.length ∧ d.2 ≤ g.nodes.length)
    (hsucc : ∀ k, ∃ sw, _get_valid_swath g.nodes.length (oracles k) = .ok sw) :
    (3 ≤ g.nodes.length → 1 ≤ size →
      isOkPop (generate_population g size oracles) = true ∧
      (okPop (generate_population g size oracles)).length = size.toNat) ∧
    (1 ≤ g.nodes.length → g.nodes.length < 3 → 2 ≤ size →
      generate_population g size oracles = .error .assertFail) ∧
    (1 ≤ g.nodes.length → size ≤ 1 →
      isOkPop (generate_population g size oracles) = true ∧
      (okPop (generate_population g size oracles)).length = 1) := by
  refine ⟨fun hn3 hsize => ?_, fun hne hlt hsize => ?_, fun hne hsize => ?_⟩
  · obtain ⟨pop, hgen, hplen, _⟩ := generate_population_ok g size oracles hn3 hsize hb hsucc
    rw [hgen]
    exact ⟨rfl, hplen⟩
  · obtain ⟨t0, hg, hp0⟩ := greedy_perm g (by intro h; rw [h] at hne; simp at hne)
    have ht0len : t0.length = g.nodes.length := hp0.length_eq
    have hsim : sim t0 (oracles 0) = .error .assertFail := by
      unfold sim
      rw [if_neg (by omega)]
    obtain ⟨mm, hmm⟩ : ∃ mm, (size - 1).toNat = mm + 1 :=
      ⟨(size - 1).toNat - 1, by omega⟩
    simp only [generate_population, hg, hmm, List.range_succ_eq_map, genLoop, hsim]
  · obtain ⟨t0, hg, _⟩ := greedy_perm g (by intro h; rw [h] at hne; simp at hne)
    have hz : (size - 1).toNat = 0 := by omega
    simp only [generate_population, hg, hz, List.range_zero, genLoop]
    exact ⟨rfl, rfl⟩

theorem generate_population_spec_witness :
    isOkPop (generate_population ⟨[0, 1, 2], fun _ _ => 1⟩ 2 (fun _ => [(0, 2)])) = true ∧
    (okPop (generate_population ⟨[0, 1, 2], fun _ _ => 1⟩ 2 (fun _ => [(0, 2)]))).length
      = (2 : Int).toNat :=
  (generate_population_spec ⟨[0, 1, 2], fun _ _ => 1⟩ 2 (fun _ => [(0, 2)])
    (fun k d hd => by rw [List.mem_singleton] at hd; subst hd; exact ⟨by decide, by decide⟩)
    (fun k => ⟨(0, 2), rfl⟩)).1 (by decide) (by decide)

lemma maxSel_mem : ∀ (rest : List Member) (a : Member),
    (rest.foldl (fun best x => if x.1 > best.1 then x else best) a) ∈ a :: rest := by
  intro rest
  induction rest with
  | nil => intro a; simp
  | cons c cs ih =>
    intro a
    rw [List.foldl_cons]
    by_cases h : c.1 > a.1
    · rw [if_pos h]
      rcases List.mem_cons.mp (ih c) with h1 | h1
      · exact List.mem_cons_of_mem a (by rw [h1]; exact List.mem_cons_self c cs)
      · exact List.mem_cons_of_mem a (List.mem_cons_of_mem c h1)
    · rw [if_neg h]
      rcases List.mem_cons.mp (ih a) with h1 | h1
      · rw [h1]; exact List.mem_cons_self a _
      · exact List.mem_cons_of_mem a (List.mem_cons_of_mem c h1)

lemma maxMember_mem (pop : List Member) (hne : pop ≠ []) :
    ∃ m, maxMember pop = some m ∧ m ∈ pop := by
  cases pop with
  | nil => exact absurd rfl hne
  | cons a rest => exact ⟨_, rfl, maxSel_mem rest a⟩

lemma tournament_ok (pop : List Member) (pick : Nat × Nat) (hlen : 2 ≤ pop.length)
    (h1 : pick.1 < pop.length) (h2 : pick.2 < pop.length) :
    ∃ t, _tournament_selection pop pick = .ok t ∧ ∃ m ∈ pop, m.2 = t := by
  unfold _tournament_selection
  rw [if_neg (by omega)]
  by_cases hcmp : (pop.getD pick.2 dummyMember).1 > (pop.getD pick.1 dummyMember).1
  · rw [if_pos hcmp]
    exact ⟨_, rfl, pop.getD pick.2 dummyMember, getD_mem pop pick.2 dummyMember h2, rfl⟩
  · rw [if_neg hcmp]
    exact ⟨_, rfl, pop.getD pick.1 dummyMember, getD_mem pop pick.1 dummyMember h1, rfl⟩

lemma geneticStep_ok (g : Graph) (o : Oracle) (i : Nat) (pop : List Member)
    (hn3 : 3 ≤ g.nodes.length) (hnd : g.nodes.Nodup)
    (hlen : 2 ≤ pop.length) (hmem : ∀ m ∈ pop, m.2.Perm g.nodes)
    (hgood : GoodIter g o pop.length i) :
    ∃ pop2, geneticStep g o i pop = .ok pop2 ∧ pop2.length = pop.length ∧
      ∀ m ∈ pop2, m.2.Perm g.nodes := by
  obtain ⟨hp11, hp12, hp21, hp22, hb1, hs1, hmb1, hms1, hb2, hs2, hmb2, hms2⟩ := hgood
  obtain ⟨parent1, hsel1, m1, hm1, hm1t⟩ := tournament_ok pop (o.selPicks i).1 hlen hp11 hp12
  obtain ⟨parent2, hsel2, m2, hm2, hm2t⟩ := tournament_ok pop (o.selPicks i).2 hlen hp21 hp22
  have hperm1 : parent1.Perm g.nodes := hm1t ▸ hmem m1 hm1
  have hperm2 : parent2.Perm g.nodes := hm2t ▸ hmem m2 hm2
  have hlen1 : parent1.length = g.nodes.length := hperm1.length_eq
  have hlen2 : parent2.length = g.nodes.length := hperm2.length_eq
  have hselAll : select_two_parents pop (o.selPicks i).1 (o.selPicks i).2 =
      .ok (parent1, parent2) := by
    simp only [select_two_parents, hsel1, hsel2]
  obtain ⟨c1a, hox1, hc1a⟩ := ox1_ok parent1 parent2 (o.swath1 i)
    (hperm1.nodup_iff.mpr hnd) (hperm2.trans hperm1.symm) (by omega)
    (fun d hd => by rw [hlen1]; exact hb1 d hd) (by rw [hlen1]; exact hs1)
  have hc1aperm : c1a.Perm g.nodes := hc1a.trans hperm1
  obtain ⟨c1, hc1eq, hc1perm⟩ : ∃ c1,
      (if o.coin1 i then sim c1a (o.mutDraws1 i) else .ok c1a) = .ok c1 ∧
      c1.Perm g.nodes := by
    by_cases hc : o.coin1 i
    · rw [if_pos hc]
      obtain ⟨t, hst, hsp⟩ := sim_ok c1a (o.mutDraws1 i)
        (by rw [hc1aperm.length_eq]; omega)
        (fun d hd => by rw [hc1aperm.length_eq]; exact hmb1 d hd)
        (by rw [hc1aperm.length_eq]; exact hms1)
      exact ⟨t, hst, hsp.trans hc1aperm⟩
    · rw [if_neg hc]
      exact ⟨c1a, rfl, hc1aperm⟩
  obtain ⟨c2a, hox2, hc2a⟩ := ox1_ok parent2 parent1 (o.swath2 i)
    (hperm2.nodup_iff.mpr hnd) (hperm1.trans hperm2.symm) (by omega)
    (fun d hd => by rw [hlen2]; exact hb2 d hd) (by rw [hlen2]; exact hs2)
  have hc2aperm : c2a.Perm g.nodes := hc2a.trans hperm2
  obtain ⟨c2, hc2eq, hc2perm⟩ : ∃ c2,
      (if o.coin2 i then sim c2a (o.mutDraws2 i) else .ok c2a) = .ok c2 ∧
      c2.Perm g.nodes := by
    by_cases hc : o.coin2 i
    · rw [if_pos hc]
      obtain ⟨t, hst, hsp⟩ := sim_ok c2a (o.mutDraws2 i)
        (by rw [hc2aperm.length_eq]; omega)
        (fun d hd => by rw [hc2aperm.length_eq]; exact hmb2 d hd)
        (by rw [hc2aperm.length_eq]; exact hms2)
      exact ⟨t, hst, hsp.trans hc2aperm⟩
    · rw [if_neg hc]
      exact ⟨c2a, rfl, hc2aperm⟩
  refine ⟨update_population (_get_fitness c2 g, c2)
    (update_population (_get_fitness c1 g, c1) pop), ?_, ?_, ?_⟩
  · simp only [geneticStep, hselAll, hox1, hc1eq, hox2, hc2eq]
  · rw [update_population_length, update_population_length]
  · intro m hm
    rcases update_population_mem _ _ _ hm with rfl | hm2
    · exact hc2perm
    · rcases update_population_mem _ _ _ hm2 with rfl | hm3
      · exact hc1perm
      · exact hmem m hm3

lemma geneticLoop_ok (g : Graph) (o : Oracle) (N : Nat)
    (hn3 : 3 ≤ g.nodes.length) (hnd : g.nodes.Nodup) (hN : 2 ≤ N) :
    ∀ (idxs : List Nat) (pop : List Member), pop.length = N →
    (∀ m ∈ pop, m.2.Perm g.nodes) → (∀ i ∈ idxs, GoodIter g o N i) →
    ∃ pop2, geneticLoop g o idxs pop = .ok pop2 ∧ pop2.length = N ∧
      ∀ m ∈ pop2, m.2.Perm g.nodes
  | [], pop => fun hplen hpmem _ => ⟨pop, rfl, hplen, hpmem⟩
  | i :: is, pop => by
    intro hplen hpmem hgood
    obtain ⟨pop2, hstep, hslen, hsmem⟩ := geneticStep_ok g o i pop hn3 hnd
      (by omega) hpmem (by rw [hplen]; exact hgood i (List.mem_cons_self i is))
    obtain ⟨pop3, hloop, hllen, hlmem⟩ := geneticLoop_ok g o N hn3 hnd hN is pop2
      (by omega) hsmem (fun j hj => hgood j (List.mem_cons_of_mem i hj))
    refine ⟨pop3, ?_, hllen, hlmem⟩
    simp only [geneticLoop, hstep, hloop]

/-- Claim C9 (amended): for a valid configuration (graph of at least 3
distinct nodes) and any random stream whose finite draw prefixes make every
swath-resampling call succeed (an event of probability 1 under uniform
sampling) and whose tournament indices are in range, the genetic engine
runs its fixed budget of `MAX_ITERATIONS` generations — the only unbounded
loops are the swath resampling loops — and returns a tour that is a
permutation of the node set. -/
theorem genetic_terminates (g : Graph) (o : Oracle)
    (hn3 : 3 ≤ g.nodes.length) (hnd : g.nodes.Nodup)
    (hib : ∀ k, ∀ d ∈ o.initDraws k, d.1 ≤ g.nodes.length ∧ d.2 ≤ g.nodes.length)
    (his : ∀ k, ∃ sw, _get_valid_swath g.nodes.length (o.initDraws k) = .ok sw)
    (hgood : ∀ i, GoodIter g o POPULATION_SIZE.toNat i) :
    isOkTour (genetic g o) = true ∧ (okTour (genetic g o)).Perm g.nodes := by
  obtain ⟨pop, hgen, hplen, hpmem⟩ := generate_population_ok g POPULATION_SIZE
    o.initDraws hn3 (by decide) hib his
  obtain ⟨pop2, hloop, hlen2, hmem2⟩ := geneticLoop_ok g o POPULATION_SIZE.toNat
    hn3 hnd (by decide) (List.range MAX_ITERATIONS) pop hplen hpmem
    (fun i _ => hgood i)
  obtain ⟨best, hmax, hbmem⟩ := maxMember_mem pop2
    (by intro h; rw [h] at hlen2; exact absurd hlen2 (by decide))
  have hfin : genetic g o = .ok best.2 := by
    simp only [genetic, hgen, hloop, hmax]
  rw [hfin]
  exact ⟨rfl, hmem2 best hbmem⟩

theorem genetic_terminates_witness :
    isOkTour (genetic ⟨[0, 1, 2], fun _ _ => 1⟩
      ⟨fun _ => [(0, 2)], fun _ => ((0, 1), (0, 1)), fun _ => [(0, 2)], fun _ => false,
       fun _ => [(0, 2)], fun _ => [(0, 2)], fun _ => false, fun _ => [(0, 2)]⟩) = true :=
  (genetic_terminates ⟨[0, 1, 2], fun _ _ => 1⟩
    ⟨fun _ => [(0, 2)], fun _ => ((0, 1), (0, 1)), fun _ => [(0, 2)], fun _ => false,
     fun _ => [(0, 2)], fun _ => [(0, 2)], fun _ => false, fun _ => [(0, 2)]⟩
    (by decide) (by decide)
    (fun k d hd => by rw [List.mem_singleton] at hd; subst hd; exact ⟨by decide, by decide⟩)
    (fun k => ⟨(0, 2), rfl⟩)
    (fun i => ⟨show (0 : Nat) < POPULATION_SIZE.toNat by decide,
      show (1 : Nat) < POPULATION_SIZE.toNat by decide,
      show (0 : Nat) < POPULATION_SIZE.toNat by decide,
      show (1 : Nat) < POPULATION_SIZE.toNat by decide,
      fun d hd => by rw [List.mem_singleton] at hd; subst hd; exact ⟨by decide, by decide⟩,
      ⟨(0, 2), rfl⟩,
      fun d hd => by rw [List.mem_singleton] at hd; subst hd; exact ⟨by decide, by decide⟩,
      ⟨(0, 2), rfl⟩,
      fun d hd => by rw [List.mem_singleton] at hd; subst hd; exact ⟨by decide, by decide⟩,
      ⟨(0, 2), rfl⟩,
      fun d hd => by rw [List.mem_singleton] at hd; subst hd; exact ⟨by decide, by decide⟩,
      ⟨(0, 2), rfl⟩⟩)).1

lemma swathLoopA_const_none : ∀ (ds : List (Nat × Nat)),
    (∀ d ∈ ds, randomSlice d = (0, 1)) → swathLoopA (0, 1) ds = none
  | [] => fun _ => by
    unfold swathLoopA
    rw [if_pos (by decide)]
  | d :: ds => fun h => by
    unfold swathLoopA
    rw [if_pos (by decide), h d (List.mem_cons_self d ds)]
    exact swathLoopA_const_none ds (fun x hx => h x (List.mem_cons_of_mem d hx))

lemma get_valid_swath_const_bad : ∀ (ds : List (Nat × Nat)),
    (∀ d ∈ ds, d = ((0 : Nat), 1)) → _get_valid_swath 3 ds = .error .outOfDraws
  | [], _ => rfl
  | d :: ds, h => by
    have hd : d = (0, 1) := h d (List.mem_cons_self d ds)
    subst hd
    have hA : swathLoopA (randomSlice (0, 1)) ds = none :=
      swathLoopA_const_none ds (fun x hx => by
        rw [h x (List.mem_cons_of_mem _ hx)]
        decide)
    show (match swathLoopA (randomSlice (0, 1)) ds with
      | none => Except.error Err.outOfDraws
      | some (s, rest) =>
        match swathLoopB 3 s rest with
        | none => Except.error Err.outOfDraws
        | some s2 => Except.ok s2) = Except.error Err.outOfDraws
    rw [hA]

/-- Claim C9 counterexample: the first resampling loop inside
`_get_valid_swath` does not terminate for every sequence of random draws:
on the draw stream that constantly produces the (valid) cut-point pair
(0, 1), no finite prefix ever makes the call return, for the minimal legal
sequence length 3. -/
theorem swath_sampling_nonterminating :
    ¬ swathSamplingTerminates 3 (fun _ => (0, 1)) := by
  rintro ⟨k, sw, hok⟩
  rw [get_valid_swath_const_bad _ (fun d hd => by
    rcases List.mem_map.mp hd with ⟨a, -, rfl⟩
    rfl)] at hok
  exact Except.noConfusion hok

end TSPSolver
